import Mathlib

/-!
lmdb-cli: the session execution engine

A shallow embedding of `cli.go` (tokenizer, command resolver, handlers, shell loop)
and of `commands/iterate.go` (the paginated scan with a configurable page size),
followed by the properties proved about them.

Byte slices are lists of bytes.  A `nil` slice and an empty slice are both the
empty list: the code only ever takes their length or converts them to a string,
except for the cursor's bound, where `nil` is tested and which is an `Option`.
-/

set_option maxRecDepth 8000
set_option linter.dupNamespace false

namespace LmdbCli

/-- One byte (Go's `byte`). -/
abbrev Byte := Fin 256

/-- A byte slice (Go's `[]byte`); Go strings are byte sequences too. -/
abbrev Bytes := List Byte

/-- The bytes of an ASCII text, one byte per character. -/
def ascii (s : String) : Bytes := s.data.map (fun c => Fin.ofNat c.toNat)

/-! ## Tokenizer (`cli.go`, `parseInput`) -/

/-- The four tokenizer states (`STATE_NONE` .. `STATE_ESCAPED`). -/
inductive State
  | STATE_NONE
  | STATE_WORD
  | STATE_QUOTE
  | STATE_ESCAPED
  deriving DecidableEq, Repr

open State

/-- Go's `unicode.IsSpace` on a code point: the Latin-1 branch is a fixed list,
the other code points are looked up in the `White_Space` table. -/
def unicodeIsSpace (r : Nat) : Bool :=
  if r ≤ 0xFF then
    r == 0x09 || r == 0x0A || r == 0x0B || r == 0x0C || r == 0x0D || r == 0x20
      || r == 0x85 || r == 0xA0
  else
    r == 0x1680 || (0x2000 ≤ r && r ≤ 0x200A) || r == 0x2028 || r == 0x2029
      || r == 0x202F || r == 0x205F || r == 0x3000

/-- The function `isWhiteSpace(b) = unicode.IsSpace(rune(b))`. -/
def isWhiteSpace (b : Byte) : Bool := unicodeIsSpace b.val

/-- The function `isQuote(b)`: one of the double quote, the single quote and the backquote. -/
def isQuote (b : Byte) : Bool := b == 0x22 || b == 0x27 || b == 0x60

/-- The backslash byte. -/
def backslash : Byte := 0x5C

/-- The newline byte. -/
def newline : Byte := 0x0A

/-- The local variables of `parseInput`: `results`, `arg` and `state`. -/
structure Tokenizer where
  results : List Bytes
  arg : Bytes
  state : State
  deriving DecidableEq, Repr

/-- One turn of the `for _, b := range in` loop of `parseInput`. -/
def parseStep (t : Tokenizer) (b : Byte) : Tokenizer :=
  match t.state with
  | STATE_NONE =>
    if isQuote b then { t with state := STATE_QUOTE }
    else if !isWhiteSpace b then { t with arg := t.arg ++ [b], state := STATE_WORD }
    else t
  | STATE_ESCAPED => { t with arg := t.arg ++ [b], state := STATE_QUOTE }
  | STATE_WORD =>
    if isWhiteSpace b then
      { results := t.results ++ [t.arg], arg := [], state := STATE_NONE }
    else { t with arg := t.arg ++ [b] }
  | STATE_QUOTE =>
    if b == backslash then { t with state := STATE_ESCAPED }
    else if isQuote b then
      { results := t.results ++ [t.arg], arg := [], state := STATE_NONE }
    else { t with arg := t.arg ++ [b] }

/-- The tokenizer before the first byte. -/
def Tokenizer.start : Tokenizer := { results := [], arg := [], state := STATE_NONE }

/-- The tokenizer after the whole input. -/
def parseRun (inp : Bytes) : Tokenizer := inp.foldl parseStep Tokenizer.start

/-- The function `parseInput(in)`: the tokens emitted while reading `in`. -/
def parseInput (inp : Bytes) : List Bytes := (parseRun inp).results

/-- Following the spec's words: the maximal runs of non-whitespace bytes of a line,
in order of appearance (split at every whitespace byte, empty pieces dropped). -/
def nonSpaceRuns (s : Bytes) : List Bytes :=
  (s.splitOnP (fun b => isWhiteSpace b)).filter (fun t => !t.isEmpty)

/-- Following the claim's words: a token with a backslash inserted before every
backslash and every quote byte. -/
def escapeToken (t : Bytes) : Bytes :=
  t.flatMap (fun b => if b == backslash || isQuote b then [backslash, b] else [b])

/-- Following the claim's words: a double quote, the escaped token, a double quote. -/
def renderToken (t : Bytes) : Bytes := [0x22] ++ escapeToken t ++ [0x22]

/-- Following the claim's words: the renderings joined with single spaces. -/
def renderLine (ts : List Bytes) : Bytes := List.intercalate [0x20] (ts.map renderToken)

/-! ## Command resolver (`cli.go`, `getCommand`) -/

/-- Go error values: `errors.New(msg)` (and library errors, known by their message)
and the store's error numbers (`mdb.Errno`). -/
inductive Error
  | text (msg : Bytes)
  | errno (code : Int)
  deriving DecidableEq, Repr

/-- The `Command` struct; a Go string is its byte sequence. -/
structure Command where
  fn : Bytes
  key : Bytes
  val : Bytes
  jsonPrint : Bool
  deriving DecidableEq, Repr

/-- The zero value of `Command` (`var cmd Command`). -/
def Command.zero : Command := { fn := [], key := [], val := [], jsonPrint := false }

/-- The map `requiredArgs`: each verb with its minimum number of arguments. -/
def requiredArgs : List (Bytes × Nat) :=
  [(ascii "scan", 0), (ascii "stat", 0), (ascii "expand", 0), (ascii "exists", 1),
   (ascii "get", 1), (ascii "del", 1), (ascii "put", 2), (ascii "exit", 0),
   (ascii "quit", 0), (ascii "it", 0)]

/-- The function `getCommand(args)`; the pair is Go's `(Command, error)`, `none` being `nil`. -/
def getCommand (args : List Bytes) : Command × Option Error :=
  let cmd := Command.zero
  if args.length = 0 then (cmd, some (Error.text (ascii "empty command"))) else
  let fn := args.getD 0 []
  match requiredArgs.lookup fn with
  | none => (cmd, some (Error.text (ascii "invalid command")))
  | some min =>
    let hasKey := decide (2 ≤ args.length) && decide (0 < (args.getD 1 []).length)
    let key := if hasKey then args.getD 1 [] else []
    let numArgs := if hasKey then 1 else 0
    let hasValue :=
      decide (1 < min) && decide (3 ≤ args.length) && decide (0 < (args.getD 2 []).length)
    let value := if hasValue then args.getD 2 [] else []
    let numArgs := if hasValue then numArgs + 1 else numArgs
    if numArgs < min then (cmd, some (Error.text (ascii "not enough arguments"))) else
    let extra := if numArgs + 1 < args.length then args.drop (numArgs + 1) else []
    let jsonPrint := extra.foldl (fun j item => if item = ascii "json" then true else j) false
    ({ fn := fn, key := key, val := value, jsonPrint := jsonPrint }, none)

/-- Following the claim's words: the key counts iff a second token exists and is
non-empty. -/
def keyCounts (args : List Bytes) : Bool :=
  match args[1]? with
  | some k => !k.isEmpty
  | none => false

/-- Following the claim's words: a third token exists and is non-empty. -/
def thirdPresent (args : List Bytes) : Bool :=
  match args[2]? with
  | some v => !v.isEmpty
  | none => false

/-- Following the claim's words: the value counts iff the minimum is above 1 and a
third token exists and is non-empty. -/
def valCounts (m : Nat) (args : List Bytes) : Bool := decide (1 < m) && thirdPresent args

/-- Following the claim's words: the number of counted positional arguments. -/
def countedArgs (m : Nat) (args : List Bytes) : Nat :=
  (if keyCounts args then 1 else 0) + (if valCounts m args then 1 else 0)

/-- Following the spec's words: the ten verbs of the command table. -/
def verbTable : List Bytes :=
  [ascii "scan", ascii "stat", ascii "expand", ascii "exists", ascii "get", ascii "del",
   ascii "put", ascii "exit", ascii "quit", ascii "it"]

/-- The three resolver errors. -/
def errEmptyCommand : Error := Error.text (ascii "empty command")

/-- The resolver error for a verb outside the table. -/
def errInvalidCommand : Error := Error.text (ascii "invalid command")

/-- The resolver error for too few arguments. -/
def errNotEnough : Error := Error.text (ascii "not enough arguments")

/-! ## Session context and the store library

The `Context` type, its methods and the store library are not among the sources: the
library calls are taken as a parameter (`Deps`), the `Context` methods are modelled from
the spec. -/

/-- The store's "no matching key" error (`mdb.NotFound`, `MDB_NOTFOUND`). -/
def NotFound : Error := Error.errno (-30798)

/-- The two cursor operations the shell uses (`mdb.SET_RANGE`, `mdb.NEXT`). -/
inductive CursorOp
  | SET_RANGE
  | NEXT
  deriving DecidableEq, Repr

/-- The calls into libraries outside the repository, over a type `σ` of store contents
as a transaction sees them and a type `κ` of library cursors.  A Go result
`(key, value, err)` is a triple, `none` being the `nil` error. -/
structure Deps (σ κ : Type) where
  /-- The call `txn.Get(dbi, key)`. -/
  txnGet : σ → Bytes → Bytes × Option Error
  /-- The call `txn.Put(dbi, key, val, 0)`: the contents afterwards, and the error. -/
  txnPut : σ → Bytes → Bytes → σ × Option Error
  /-- The call `txn.Del(dbi, key, nil)`: the contents afterwards, and the error. -/
  txnDel : σ → Bytes → σ × Option Error
  /-- Opening a read transaction and a cursor in it. -/
  cursorOpen : σ → Except Error κ
  /-- The call `cursor.Get(setKey, nil, op)`: the result, and the cursor afterwards. -/
  cursorGet : κ → Bytes → CursorOp → (Bytes × Bytes × Option Error) × κ
  /-- The call `json.Indent(&buf, data, "", "    ")`: the buffer's bytes, and the error. -/
  jsonIndent : Bytes → Bytes × Option Error
  /-- The text of a store error number (`mdb.Errno.Error`). -/
  strerror : Int → Bytes

/-- The method `err.Error()`. -/
def Error.Error {σ κ : Type} (d : Deps σ κ) : Error → Bytes
  | Error.text msg => msg
  | Error.errno code => d.strerror code

/-- The shell's cursor: the library cursor, the bound (`nil` is `none`) and, in
`commands/iterate.go`, whether values are emitted. -/
structure Cursor (κ : Type) where
  handle : κ
  Prefix : Option Bytes
  IncludeValues : Bool

/-- Modelled from the spec: the session context (its type is not among the sources), with
the store contents, the cursor that is open if any, the byte strings handed to the
output sink (oldest first) and the number of prompts written. -/
structure Context (σ κ : Type) where
  store : σ
  cursor : Option (Cursor κ)
  out : List Bytes
  prompts : Nat

variable {σ κ : Type}

/-- Modelled from the spec: `Context.Output` hands one byte string to the output sink. -/
def Context.Output (c : Context σ κ) (data : Bytes) : Context σ κ :=
  { c with out := c.out ++ [data] }

/-- Modelled from the spec: `Context.Prompt` writes the prompt, which is not an output
line. -/
def Context.Prompt (c : Context σ κ) : Context σ κ := { c with prompts := c.prompts + 1 }

/-- Modelled from the spec: `Context.CloseCursor` closes the open cursor if there is one;
closing is idempotent. -/
def Context.CloseCursor (c : Context σ κ) : Context σ κ := { c with cursor := none }

/-- Modelled from the spec: `Context.PrepareCursor` replaces any open cursor by a new
one, recording the bound (none for a `nil` slice; the slices that reach it are `nil` or
non-empty) and whether values are emitted. -/
def Context.PrepareCursor (d : Deps σ κ) (c : Context σ κ) (val : Bytes)
    (includeValues : Bool) : Context σ κ × Option Error :=
  let c := c.CloseCursor
  match d.cursorOpen c.store with
  | Except.error e => (c, some e)
  | Except.ok h =>
    ({ c with cursor := some { handle := h, Prefix := if val = [] then none else some val,
                               IncludeValues := includeValues } }, none)

/-- Modelled from the spec: `Context.WithinRead` runs the work on a read-only
transaction and releases it whatever the outcome. -/
def Context.WithinRead (c : Context σ κ)
    (f : σ → Context σ κ → Context σ κ × Option Error) : Context σ κ × Option Error :=
  f c.store c

/-- Modelled from the spec: `Context.WithinWrite` runs the work on a read-write
transaction; on success it commits, on failure it aborts and passes the failure on. -/
def Context.WithinWrite (c : Context σ κ)
    (f : σ → Context σ κ → (σ × Context σ κ) × Option Error) :
    Context σ κ × Option Error :=
  match f c.store c with
  | ((txn, c₂), none) => ({ c₂ with store := txn }, none)
  | ((_, c₂), some e) => (c₂, some e)

/-! ## Handlers (`cli.go`) -/

/-- The bytes `OK`. -/
def OK : Bytes := ascii "OK"

/-- The continuation marker `"it" for more`. -/
def SCAN_MORE : Bytes := ascii "\"it\" for more"

/-- The function `get(context, key, jsonPrint)`. -/
def get (d : Deps σ κ) (context : Context σ κ) (key : Bytes) (jsonPrint : Bool) :
    Context σ κ × Option Error :=
  context.WithinRead (fun txn context =>
    match d.txnGet txn key with
    | (_, some err) => (context, some err)
    | (data, none) =>
      if jsonPrint then
        match d.jsonIndent data with
        | (_, some err) => (context, some err)
        | (prettyData, none) => (context.Output prettyData, none)
      else (context.Output data, none))

/-- The function `exists(context, key)`. -/
def «exists» (d : Deps σ κ) (context : Context σ κ) (key : Bytes) :
    Context σ κ × Option Error :=
  context.WithinRead (fun txn context =>
    match d.txnGet txn key with
    | (_, some _) => (context.Output (ascii "false"), none)
    | (_, none) => (context.Output (ascii "true"), none))

/-- The function `del(context, key)`. -/
def del (d : Deps σ κ) (context : Context σ κ) (key : Bytes) : Context σ κ × Option Error :=
  match context.WithinWrite (fun txn context =>
      (((d.txnDel txn key).1, context), (d.txnDel txn key).2)) with
  | (context, some err) => (context, some err)
  | (context, none) => (context.Output OK, none)

/-- The function `put(context, key, val)`. -/
def put (d : Deps σ κ) (context : Context σ κ) (key val : Bytes) :
    Context σ κ × Option Error :=
  match context.WithinWrite (fun txn context =>
      (((d.txnPut txn key val).1, context), (d.txnPut txn key val).2)) with
  | (context, some err) => (context, some err)
  | (context, none) => (context.Output OK, none)

/-- The `for i := 0; i < 10; i++` loop of `iterate` with `todo` turns left; the
return after the loop is the case of no turn left.  The cursor is shared with the
context through a pointer, so each read also updates `context.cursor`. -/
def iterateLoop (d : Deps σ κ) :
    Nat → Cursor κ → Bool → Context σ κ → Context σ κ × Option Error
  | 0, _, _, context => (context.Output SCAN_MORE, none)
  | todo + 1, cursor, first, context =>
    let seek := first && cursor.Prefix.isSome
    let r := if seek then d.cursorGet cursor.handle (cursor.Prefix.getD []) CursorOp.SET_RANGE
      else d.cursorGet cursor.handle [] CursorOp.NEXT
    let first := if seek then false else first
    let key := r.1.1
    let value := r.1.2.1
    let err := r.1.2.2
    let cursor := { cursor with handle := r.2 }
    let context := { context with cursor := some cursor }
    if err = some NotFound ∨
        (cursor.Prefix.isSome ∧ ¬ (cursor.Prefix.getD []) <+: key) then
      (context.CloseCursor, none)
    else if err ≠ none then (context.CloseCursor, err)
    else iterateLoop d todo cursor first ((context.Output key).Output value)

/-- The function `iterate(context, first)`. -/
def iterate (d : Deps σ κ) (context : Context σ κ) (first : Bool) :
    Context σ κ × Option Error :=
  match context.cursor with
  | none => (context, none)
  | some cursor => iterateLoop d 10 cursor first context

/-- The function `scan(context, val)`. -/
def scan (d : Deps σ κ) (context : Context σ κ) (val : Bytes) : Context σ κ × Option Error :=
  match context.PrepareCursor d val true with
  | (context, some err) => (context, some err)
  | (context, none) => iterate d context true

/-! ## Paginated scan with a page size (`commands/iterate.go`, `commands/keys.go`) -/

/-- The `Iterate` command. -/
structure Iterate where
  PageSize : Int

/-- The loop of `Iterate.execute` with `todo` turns left. -/
def Iterate.executeLoop (d : Deps σ κ) :
    Nat → Cursor κ → Bool → Context σ κ → Context σ κ × Option Error
  | 0, _, _, context => (context.Output SCAN_MORE, none)
  | todo + 1, cursor, first, context =>
    let r := if first && cursor.Prefix.isSome
      then d.cursorGet cursor.handle (cursor.Prefix.getD []) CursorOp.SET_RANGE
      else d.cursorGet cursor.handle [] CursorOp.NEXT
    let first := false
    let key := r.1.1
    let value := r.1.2.1
    let err := r.1.2.2
    let cursor := { cursor with handle := r.2 }
    let context := { context with cursor := some cursor }
    if err = some NotFound ∨
        (cursor.Prefix.isSome ∧ ¬ (cursor.Prefix.getD []) <+: key) then
      (context.CloseCursor, none)
    else if err ≠ none then (context.CloseCursor, err)
    else
      let context := context.Output key
      let context := if cursor.IncludeValues then (context.Output value).Output [] else context
      Iterate.executeLoop d todo cursor first context

/-- The function `Iterate.execute(context, first)`. -/
def Iterate.execute (cmd : Iterate) (d : Deps σ κ) (context : Context σ κ) (first : Bool) :
    Context σ κ × Option Error :=
  match context.cursor with
  | none => (context, none)
  | some cursor => Iterate.executeLoop d cmd.PageSize.toNat cursor first context

/-! ## Shell loop (`cli.go`, `runShell`) -/

/-- What `runShell` carries from one turn of its loop to the next: the context and
the variable `err`, which is declared before the loop. -/
structure Shell (σ κ : Type) where
  context : Context σ κ
  err : Option Error

/-- The `if cerr != nil .. else if cmd.fn == ..` chain of `runShell`: the context and
the variable `err` afterwards, and whether the chain ended in `return`. -/
def dispatch (d : Deps σ κ) (context : Context σ κ) (err : Option Error) (cmd : Command)
    (cerr : Option Error) : (Context σ κ × Option Error) × Bool :=
  match cerr with
  | some e => ((context.Output (e.Error d), err), false)
  | none =>
    if cmd.fn = ascii "get" then (get d context cmd.key cmd.jsonPrint, false)
    else if cmd.fn = ascii "exists" then («exists» d context cmd.key, false)
    else if cmd.fn = ascii "del" then (del d context cmd.key, false)
    else if cmd.fn = ascii "put" then (put d context cmd.key cmd.val, false)
    else if cmd.fn = ascii "scan" then (scan d context cmd.key, false)
    else if cmd.fn = ascii "it" then (iterate d context false, false)
    else if cmd.fn = ascii "quit" ∨ cmd.fn = ascii "exit" then ((context, err), true)
    else ((context, err), false)

/-- The end of a turn of `runShell`: unless the turn returned, `if err != nil` the
text of `err` is written. -/
def report (d : Deps σ κ) (r : (Context σ κ × Option Error) × Bool) : Shell σ κ × Bool :=
  if r.2 then ({ context := r.1.1, err := r.1.2 }, true)
  else
    match r.1.2 with
    | some e => ({ context := r.1.1.Output (e.Error d), err := r.1.2 }, false)
    | none => ({ context := r.1.1, err := r.1.2 }, false)

/-- One turn of the `for` loop of `runShell` on the bytes `input` that `ReadSlice`
returned; the flag tells that the turn ended in `return`. -/
def loopBody (d : Deps σ κ) (s : Shell σ κ) (input : Bytes) : Shell σ κ × Bool :=
  let context := s.context.Prompt
  let r := getCommand (parseInput input)
  let cmd := r.1
  let cerr := r.2
  let context :=
    if cmd.fn ≠ ascii "it" ∧ context.cursor.isSome then context.CloseCursor else context
  report d (dispatch d context s.err cmd cerr)

/-! ## A store held in memory

Modelled from the spec: the store is an ordered byte-string keyspace; a cursor seeks
to the first key greater than or equal to a bound and advances in key order. -/

/-- Modelled from the spec: the byte order of the keys of the store (the store engine
is not among the sources); the first differing byte decides, and a proper prefix comes
first. -/
def keyLt : Bytes → Bytes → Bool
  | [], [] => false
  | [], _ :: _ => true
  | _ :: _, [] => false
  | a :: as, b :: bs => decide (a < b) || (a == b && keyLt as bs)

/-- Modelled from the spec: a cursor over the entries of the store in key order;
`rest` holds the entries after the cursor's position (all of them before the first
read). -/
structure MemCursor where
  all : List (Bytes × Bytes)
  rest : List (Bytes × Bytes)
  deriving DecidableEq, Repr

/-- Modelled from the spec: a cursor read.  `SET_RANGE` moves to the first key greater
than or equal to the bound, `NEXT` to the next entry in key order; either reports
`NotFound` when there is no such entry. -/
def memCursorGet (c : MemCursor) (setKey : Bytes) :
    CursorOp → (Bytes × Bytes × Option Error) × MemCursor
  | CursorOp.SET_RANGE =>
    match c.all.dropWhile (fun e => keyLt e.1 setKey) with
    | [] => (([], [], some NotFound), { c with rest := [] })
    | e :: r => ((e.1, e.2, none), { c with rest := r })
  | CursorOp.NEXT =>
    match c.rest with
    | [] => (([], [], some NotFound), c)
    | e :: r => ((e.1, e.2, none), { c with rest := r })

/-- Modelled from the spec: lookup of a key. -/
def memGet (es : List (Bytes × Bytes)) (key : Bytes) : Bytes × Option Error :=
  match es.lookup key with
  | some v => (v, none)
  | none => ([], some NotFound)

/-- Modelled from the spec: upsert of a key, keeping the entries in key order. -/
def memInsert (key val : Bytes) : List (Bytes × Bytes) → List (Bytes × Bytes)
  | [] => [(key, val)]
  | e :: es =>
    if e.1 = key then (key, val) :: es
    else if keyLt key e.1 then (key, val) :: e :: es
    else e :: memInsert key val es

/-- Modelled from the spec: deletion of a key, `NotFound` if it is absent. -/
def memDel (es : List (Bytes × Bytes)) (key : Bytes) : List (Bytes × Bytes) × Option Error :=
  match es.lookup key with
  | some _ => (es.filter (fun e => e.1 ≠ key), none)
  | none => (es, some NotFound)

/-- Modelled from the spec: the store library over entries held in memory, in key
order.  The JSON formatter and the error texts stay parameters. -/
def memStore (jsonIndent : Bytes → Bytes × Option Error) (strerror : Int → Bytes) :
    Deps (List (Bytes × Bytes)) MemCursor where
  txnGet := memGet
  txnPut := fun es key val => (memInsert key val es, none)
  txnDel := memDel
  cursorOpen := fun es => Except.ok { all := es, rest := es }
  cursorGet := memCursorGet
  jsonIndent := jsonIndent
  strerror := strerror

/-! ## Vocabulary of the scan claims -/

/-- What `iterate` of `cli.go` emits for one entry: the key, then the value. -/
def emitPair (_ : Bool) (key value : Bytes) : List Bytes := [key, value]

/-- What `Iterate.execute` emits for one entry: the key and, when values are included,
the value and an empty output. -/
def emitEntry (includeValues : Bool) (key value : Bytes) : List Bytes :=
  if includeValues then [key, value, []] else [key]

/-- The page loop both `iterate` and `Iterate.execute` run, with what is emitted per
entry left open; `seek` tells that the next read is the `SET_RANGE` one. -/
def pageLoop (d : Deps σ κ) (emit : Bool → Bytes → Bytes → List Bytes) :
    Nat → Cursor κ → Bool → Context σ κ → Context σ κ × Option Error
  | 0, _, _, context => (context.Output SCAN_MORE, none)
  | todo + 1, cursor, seek, context =>
    let r := if seek then d.cursorGet cursor.handle (cursor.Prefix.getD []) CursorOp.SET_RANGE
      else d.cursorGet cursor.handle [] CursorOp.NEXT
    let cursor₂ : Cursor κ := { cursor with handle := r.2 }
    if r.1.2.2 = some NotFound ∨
        (cursor₂.Prefix.isSome ∧ ¬ (cursor₂.Prefix.getD []) <+: r.1.1) then
      ({ context with cursor := none }, none)
    else if r.1.2.2 ≠ none then ({ context with cursor := none }, r.1.2.2)
    else pageLoop d emit todo cursor₂ false
      { context with cursor := some cursor₂,
                     out := context.out ++ emit cursor₂.IncludeValues r.1.1 r.1.2.1 }

/-- One call of the page loop on a context, a no-op without a cursor. -/
def pageCall (d : Deps σ κ) (emit : Bool → Bytes → Bytes → List Bytes) (n : Nat)
    (context : Context σ κ) (first : Bool) : Context σ κ × Option Error :=
  match context.cursor with
  | none => (context, none)
  | some cursor => pageLoop d emit n cursor (first && cursor.Prefix.isSome) context

/-- The context after `j` further pages. -/
def pageTimes (d : Deps σ κ) (emit : Bool → Bytes → Bytes → List Bytes) (n : Nat) :
    Nat → Context σ κ → Context σ κ
  | 0, context => context
  | j + 1, context => pageTimes d emit n j (pageCall d emit n context false).1

/-- The context after `j` lines `it` (`iterate(context, false)` each). -/
def itTimes (d : Deps σ κ) : Nat → Context σ κ → Context σ κ
  | 0, context => context
  | j + 1, context => itTimes d j (iterate d context false).1

/-- The context after `j` runs of `Iterate.Execute` (`execute(context, false)` each). -/
def Iterate.executeTimes (cmd : Iterate) (d : Deps σ κ) : Nat → Context σ κ → Context σ κ
  | 0, context => context
  | j + 1, context => Iterate.executeTimes cmd d j (cmd.execute d context false).1

/-- Following the claim's words: the entries whose key starts with the bound (all of
them for the empty bound of an unbounded scan), in the order of the store. -/
def matching (val : Bytes) (es : List (Bytes × Bytes)) : List (Bytes × Bytes) :=
  es.filter (fun e => decide (val <+: e.1))

/-- Following the claim's words: the keys of the store are in ascending byte order. -/
def Ascending (es : List (Bytes × Bytes)) : Prop :=
  es.Pairwise (fun a b => keyLt a.1 b.1 = true)

instance (es : List (Bytes × Bytes)) : Decidable (Ascending es) := by
  unfold Ascending
  infer_instance

/-- Following the claim's words: the first `j` pages of `n` entries each. -/
def pageEntries (n : Nat) : Nat → List (Bytes × Bytes) → List (List (Bytes × Bytes))
  | 0, _ => []
  | j + 1, m => m.take n :: pageEntries n j (m.drop n)

/-- Following the claim's words: the outputs of full pages, each page being its
entries as emitted, then the continuation marker. -/
def pagesOut (emit : Bytes → Bytes → List Bytes) (pages : List (List (Bytes × Bytes))) :
    List Bytes :=
  pages.flatMap (fun pg => pg.flatMap (fun e => emit e.1 e.2) ++ [SCAN_MORE])

/-- Whether an entry lies within the cursor's bound (every entry does without one). -/
def withinBound (p : Option Bytes) (e : Bytes × Bytes) : Bool :=
  match p with
  | none => true
  | some b => decide (b <+: e.1)

/-- The entries a cursor over the store in memory has before it at its next read. -/
def startRest (cursor : Cursor MemCursor) (seek : Bool) : List (Bytes × Bytes) :=
  if seek then cursor.handle.all.dropWhile (fun e => keyLt e.1 (cursor.Prefix.getD []))
  else cursor.handle.rest

/-- The store library in memory with a JSON formatter that copies its input and
empty error texts (neither is used by a scan). -/
def plainStore : Deps (List (Bytes × Bytes)) MemCursor :=
  memStore (fun data => (data, none)) (fun _ => [])

/-- The store `{a1:x, a2:y, b1:z}` of the scan example. -/
def exampleStore : List (Bytes × Bytes) :=
  [(ascii "a1", ascii "x"), (ascii "a2", ascii "y"), (ascii "b1", ascii "z")]

/-- A store of ten keys `a0` .. `a9`, each with the value `x`. -/
def tenStore : List (Bytes × Bytes) :=
  (List.range 10).map (fun i => (ascii "a" ++ [Fin.ofNat (48 + i)], ascii "x"))

/-- A fresh context over the given store: no cursor, nothing emitted yet. -/
def freshContext (es : List (Bytes × Bytes)) : Context (List (Bytes × Bytes)) MemCursor :=
  { store := es, cursor := none, out := [], prompts := 0 }

/-- A store library whose cursor reads as the store in memory does while entries
remain, and fails with the error number 5 (an I/O error), returning `nil` key and value,
where the store in memory reports `NotFound`. -/
def faultyStore : Deps (List (Bytes × Bytes)) MemCursor :=
  { plainStore with
    cursorGet := fun c setKey op =>
      match memCursorGet c setKey op with
      | ((_, _, some _), c₂) => (([], [], some (Error.errno 5)), c₂)
      | r => r }

/-- A store of eleven keys, `a0` .. `a9` and `a:`, each with the value `x`. -/
def elevenStore : List (Bytes × Bytes) :=
  (List.range 11).map (fun i => (ascii "a" ++ [Fin.ofNat (48 + i)], ascii "x"))

/-- A shell whose cursor is open: the state after a scan without bound over the store
of eleven keys, whose first page is full. -/
def openShell : Shell (List (Bytes × Bytes)) MemCursor :=
  { context := (scan plainStore (freshContext elevenStore) []).1, err := none }

/-! ## Vocabulary of the cursor and shell-loop claims -/

/-- The results of the first `n` reads of a page loop that is never stopped: the first
one is the `SET_RANGE` read when `seek` is set, the others are `NEXT` reads. -/
def readsOf (d : Deps σ κ) : Nat → κ → Bytes → Bool → List (Bytes × Bytes × Option Error)
  | 0, _, _, _ => []
  | n + 1, h, bound, seek =>
    let r := if seek then d.cursorGet h bound CursorOp.SET_RANGE
      else d.cursorGet h [] CursorOp.NEXT
    r.1 :: readsOf d n r.2 bound false

/-- Following the claim's words: the read ends the page, by end-of-range or another
store error, or by a key outside the bound. -/
def stops (p : Option Bytes) (r : Bytes × Bytes × Option Error) : Bool :=
  decide (r.2.2 ≠ none ∨ (p.isSome = true ∧ ¬ (p.getD []) <+: r.1))

/-- Following the claim's words: the entries read before the read that ends the page,
among at most `n` reads. -/
def pageReads (d : Deps σ κ) (n : Nat) (cursor : Cursor κ) (first : Bool) :
    List (Bytes × Bytes × Option Error) :=
  (readsOf d n cursor.handle (cursor.Prefix.getD []) (first && cursor.Prefix.isSome)).takeWhile
    (fun r => !stops cursor.Prefix r)

/-- Go's `bufio.Reader.ReadSlice('\n')` on the bytes still to be read, with the default
buffer of 4096 bytes: the bytes up to and including the first newline, or the whole
buffer when it holds no newline (it is full, or the input has ended); and the bytes
left.  At end of input it returns no bytes; the error it returns is dropped by the
caller. -/
def ReadSlice (input : Bytes) : Bytes × Bytes :=
  let window := input.take 4096
  let n := (window.takeWhile (fun b => b ≠ newline)).length
  let line := if n < window.length then window.take (n + 1) else window
  (line, input.drop line.length)

/-- The `for` loop of `runShell`, cut after `fuel` turns: the state and the input left,
and whether the loop has returned. -/
def runShellLoop (d : Deps σ κ) : Nat → Shell σ κ → Bytes → (Shell σ κ × Bytes) × Bool
  | 0, s, input => ((s, input), false)
  | fuel + 1, s, input =>
    let r := ReadSlice input
    let t := loopBody d s r.1
    if t.2 then ((t.1, r.2), true) else runShellLoop d fuel t.1 r.2

/-- The function `runShell(context, in)`, cut after `fuel` turns of its loop. -/
def runShell (d : Deps σ κ) (fuel : Nat) (context : Context σ κ) (input : Bytes) :
    (Shell σ κ × Bytes) × Bool :=
  runShellLoop d fuel { context := context, err := none } input

/-- The store library in memory with a text for the error numbers: `MDB_NOTFOUND` for
`NotFound`, `error` for the others. -/
def textStore : Deps (List (Bytes × Bytes)) MemCursor :=
  memStore (fun data => (data, none))
    (fun code => if code = -30798 then ascii "MDB_NOTFOUND" else ascii "error")

/-- The read a turn of the page loop makes: the result, and the library cursor
afterwards. -/
def turnRead (d : Deps σ κ) (cursor : Cursor κ) (seek : Bool) :
    (Bytes × Bytes × Option Error) × κ :=
  if seek then d.cursorGet cursor.handle (cursor.Prefix.getD []) CursorOp.SET_RANGE
  else d.cursorGet cursor.handle [] CursorOp.NEXT

/-- The entries read before the read that ends the page, with the kind of the first
read given. -/
def goodReads (d : Deps σ κ) (n : Nat) (cursor : Cursor κ) (seek : Bool) :
    List (Bytes × Bytes × Option Error) :=
  (readsOf d n cursor.handle (cursor.Prefix.getD []) seek).takeWhile
    (fun r => !stops cursor.Prefix r)

/-! ## Tokenizer: lemmas -/

theorem isWhiteSpace_newline : isWhiteSpace newline = true := by decide

theorem isQuote_newline : isQuote newline = false := by decide

theorem parseRun_append (s₁ s₂ : Bytes) :
    parseRun (s₁ ++ s₂) = s₂.foldl parseStep (parseRun s₁) := by
  simp [parseRun, List.foldl_append]

theorem splitOnP_exists_cons (p : Byte → Bool) (s : Bytes) :
    ∃ hd tl, s.splitOnP p = hd :: tl := by
  cases h : s.splitOnP p with
  | nil => exact absurd h (List.splitOnP_ne_nil p s)
  | cons hd tl => exact ⟨hd, tl, rfl⟩

/-- Reading an unquoted line from the state `NONE` or from the state `WORD`. -/
theorem foldl_unquoted (s : Bytes) (hq : ∀ b ∈ s, isQuote b = false) :
    (∀ rs, ((s ++ [newline]).foldl parseStep ⟨rs, [], STATE_NONE⟩).results
        = rs ++ nonSpaceRuns s) ∧
    (∀ rs a, a ≠ [] →
      ((s ++ [newline]).foldl parseStep ⟨rs, a, STATE_WORD⟩).results
        = rs ++ ((s.splitOnP (fun b => isWhiteSpace b)).modifyHead (fun t => a ++ t)).filter
            (fun t => !t.isEmpty)) := by
  induction s with
  | nil =>
    refine ⟨fun rs => ?_, fun rs a ha => ?_⟩
    · simp [nonSpaceRuns, parseStep, isWhiteSpace_newline, isQuote_newline]
    · cases a with
      | nil => exact absurd rfl ha
      | cons x xs => simp [parseStep, isWhiteSpace_newline]
  | cons x xs ih =>
    have hx : isQuote x = false := hq x (List.mem_cons_self _ _)
    obtain ⟨ih1, ih2⟩ := ih (fun b hb => hq b (List.mem_cons_of_mem _ hb))
    obtain ⟨hd, tl, hsp⟩ := splitOnP_exists_cons (fun b => isWhiteSpace b) xs
    refine ⟨fun rs => ?_, fun rs a ha => ?_⟩
    · by_cases hw : isWhiteSpace x = true
      · have := ih1 rs
        simp only [List.cons_append, List.foldl_cons, parseStep, hx, hw] at this ⊢
        simpa [nonSpaceRuns, List.splitOnP_cons, hw] using this
      · have hw' : isWhiteSpace x = false := by simpa using hw
        have := ih2 rs [x] (by simp)
        simp only [List.cons_append, List.foldl_cons, parseStep, hx, hw'] at this ⊢
        simpa [nonSpaceRuns, List.splitOnP_cons, hw', hsp] using this
    · by_cases hw : isWhiteSpace x = true
      · have := ih1 (rs ++ [a])
        simp only [List.cons_append, List.foldl_cons, parseStep, hw] at this ⊢
        cases a with
        | nil => exact absurd rfl ha
        | cons y ys =>
          simpa [nonSpaceRuns, List.splitOnP_cons, hw] using this
      · have hw' : isWhiteSpace x = false := by simpa using hw
        have := ih2 rs (a ++ [x]) (by simp)
        simp only [List.cons_append, List.foldl_cons, parseStep, hw'] at this ⊢
        simpa [List.splitOnP_cons, hw', hsp] using this

theorem nonSpaceRuns_ne_nil (s : Bytes) : ∀ t ∈ nonSpaceRuns s, t ≠ [] := by
  intro t ht
  simp only [nonSpaceRuns, List.mem_filter] at ht
  intro h
  simp [h] at ht

theorem flatten_splitOnP (p : Byte → Bool) (s : Bytes) :
    (s.splitOnP p).flatten = s.filter (fun b => !p b) := by
  induction s with
  | nil => simp
  | cons x xs ih =>
    obtain ⟨hd, tl, hsp⟩ := splitOnP_exists_cons p xs
    by_cases hp : p x = true
    · simp [List.splitOnP_cons, hp, ih]
    · have hp' : p x = false := by simpa using hp
      rw [hsp] at ih
      simp [List.splitOnP_cons, hp', hsp, ← ih]

theorem flatten_filter_nonempty (l : List Bytes) :
    (l.filter (fun t => !t.isEmpty)).flatten = l.flatten := by
  induction l with
  | nil => rfl
  | cons x xs ih =>
    cases x with
    | nil => simpa using ih
    | cons y ys => simp [ih]

/-! ## Tokenizer: claims -/

/-- C1 (as amended): each of the three example lines, followed by the newline that ends
a line read by the shell, is split into exactly the tokens the claim lists. -/
theorem parseInput_examples :
    parseInput (ascii "get foo\n") = [ascii "get", ascii "foo"] ∧
    parseInput (ascii "put \"a b\" c\n") = [ascii "put", ascii "a b", ascii "c"] ∧
    parseInput (ascii "put 'a\\'b' c\n") = [ascii "put", ascii "a'b", ascii "c"] := by
  decide

/-- C1 (as stated) fails: on the three lines as written, where the last word is the last
bytes of the input, that word is not emitted, and the lines give `[get]`, `[put, a b]`
and `[put, a'b]`. -/
theorem parseInput_examples_unterminated :
    parseInput (ascii "get foo") = [ascii "get"] ∧
    parseInput (ascii "get foo") ≠ [ascii "get", ascii "foo"] ∧
    parseInput (ascii "put \"a b\" c") = [ascii "put", ascii "a b"] ∧
    parseInput (ascii "put 'a\\'b' c") = [ascii "put", ascii "a'b"] := by
  decide

/-- C2: on a line without quote bytes, ended by a newline, `parseInput` returns the
maximal runs of non-whitespace bytes in order; every token is non-empty; and the tokens
together hold every non-whitespace byte of the line, a backslash included. -/
theorem parseInput_unquoted (s : Bytes) (hq : ∀ b ∈ s, isQuote b = false) :
    parseInput (s ++ [newline]) = nonSpaceRuns s ∧
    (∀ t ∈ parseInput (s ++ [newline]), t ≠ []) ∧
    (parseInput (s ++ [newline])).flatten = s.filter (fun b => !isWhiteSpace b) ∧
    isWhiteSpace backslash = false := by
  have h : parseInput (s ++ [newline]) = nonSpaceRuns s := by
    have := (foldl_unquoted s hq).1 []
    simpa [parseInput, parseRun, Tokenizer.start] using this
  refine ⟨h, ?_, ?_, by decide⟩
  · rw [h]; exact nonSpaceRuns_ne_nil s
  · rw [h, nonSpaceRuns, flatten_filter_nonempty, flatten_splitOnP]

/-- C2 at a concrete line: a backslash and a tab among the words. -/
theorem parseInput_unquoted_witness :
    (∀ b ∈ ascii " a\\b \t cd", isQuote b = false) ∧
    parseInput (ascii " a\\b \t cd" ++ [newline]) = nonSpaceRuns (ascii " a\\b \t cd") ∧
    (∀ t ∈ parseInput (ascii " a\\b \t cd" ++ [newline]), t ≠ []) ∧
    (parseInput (ascii " a\\b \t cd" ++ [newline])).flatten
      = (ascii " a\\b \t cd").filter (fun b => !isWhiteSpace b) ∧
    isWhiteSpace backslash = false :=
  ⟨by decide, parseInput_unquoted (ascii " a\\b \t cd") (by decide)⟩

/-- Inside a quoted region the escaped rendering of `t` appends exactly `t` to `arg`. -/
theorem foldl_escapeToken (t rest : Bytes) (rs : List Bytes) (a : Bytes) :
    (escapeToken t ++ rest).foldl parseStep ⟨rs, a, State.STATE_QUOTE⟩
      = rest.foldl parseStep ⟨rs, a ++ t, State.STATE_QUOTE⟩ := by
  induction t generalizing a with
  | nil => simp [escapeToken]
  | cons x xs ih =>
    have ih' := ih (a ++ [x])
    simp only [escapeToken, List.flatMap_cons, List.append_assoc] at ih' ⊢
    by_cases hb : x = backslash
    · subst hb
      simpa [parseStep] using ih'
    · by_cases hx : isQuote x = true
      · simpa [parseStep, hx] using ih'
      · have hx' : isQuote x = false := by simpa using hx
        simpa [parseStep, hx', hb] using ih'

/-- From the state `NONE`, a rendered token emits exactly that token. -/
theorem foldl_renderToken (t rest : Bytes) (rs : List Bytes) :
    (renderToken t ++ rest).foldl parseStep ⟨rs, [], State.STATE_NONE⟩
      = rest.foldl parseStep ⟨rs ++ [t], [], State.STATE_NONE⟩ := by
  have hq : isQuote (0x22 : Byte) = true := by decide
  have hb : ((0x22 : Byte) == backslash) = false := by decide
  simp only [renderToken, List.append_assoc, List.singleton_append, List.cons_append,
    List.foldl_cons, List.nil_append]
  rw [show parseStep ⟨rs, [], State.STATE_NONE⟩ 0x22 = ⟨rs, [], State.STATE_QUOTE⟩ by
    simp [parseStep, hq]]
  rw [foldl_escapeToken]
  simp [parseStep, hq, hb]

theorem foldl_renderLine (ts : List Bytes) (rs : List Bytes) :
    (renderLine ts).foldl parseStep ⟨rs, [], State.STATE_NONE⟩
      = ⟨rs ++ ts, [], State.STATE_NONE⟩ := by
  induction ts generalizing rs with
  | nil => simp [renderLine, List.intercalate]
  | cons t ts ih =>
    cases ts with
    | nil =>
      have := foldl_renderToken t [] rs
      simpa [renderLine, List.intercalate] using this
    | cons u us =>
      have hs : isWhiteSpace (0x20 : Byte) = true := by decide
      have hq : isQuote (0x20 : Byte) = false := by decide
      have h1 := ih (rs ++ [t])
      have h2 := foldl_renderToken t ([0x20] ++ renderLine (u :: us)) rs
      have h3 : renderLine (t :: u :: us)
          = renderToken t ++ ([0x20] ++ renderLine (u :: us)) := by
        simp [renderLine, List.intercalate]
      rw [h3, h2, List.foldl_append]
      simpa [parseStep, hs, hq] using h1

/-- C3: quoting round trip.  Rendering every token between double quotes, with a
backslash before each backslash and each quote byte, and joining the renderings with
single spaces gives a line that `parseInput` splits back into exactly the tokens. -/
theorem parseInput_renderLine (ts : List Bytes) : parseInput (renderLine ts) = ts := by
  simp [parseInput, parseRun, Tokenizer.start, foldl_renderLine]

/-! ## Command resolver: lemmas -/

theorem requiredArgs_lookup_le (fn : Bytes) (m : Nat)
    (hm : requiredArgs.lookup fn = some m) : m ≤ 2 := by
  simp only [requiredArgs, List.lookup] at hm
  repeat' split at hm
  all_goals simp at hm
  all_goals omega

theorem foldl_json (extra : List Bytes) (j : Bool) :
    extra.foldl (fun j item => if item = ascii "json" then true else j) j
      = (j || decide (ascii "json" ∈ extra)) := by
  induction extra generalizing j with
  | nil => simp
  | cons x xs ih =>
    rw [List.foldl_cons, ih]
    by_cases hx : x = ascii "json"
    · simp [hx]
    · have : ¬ ascii "json" = x := fun h => hx h.symm
      simp [hx, this]

theorem hasKey_eq (fn : Bytes) (rest : List Bytes) :
    (decide (2 ≤ (fn :: rest).length) && decide (0 < ((fn :: rest).getD 1 []).length))
      = keyCounts (fn :: rest) := by
  cases rest with
  | nil => simp [keyCounts]
  | cons k ks => cases k <;> simp [keyCounts]

theorem hasValue_eq (fn : Bytes) (rest : List Bytes) (m : Nat) :
    (decide (1 < m) && decide (3 ≤ (fn :: rest).length)
        && decide (0 < ((fn :: rest).getD 2 []).length))
      = valCounts m (fn :: rest) := by
  cases rest with
  | nil => simp [valCounts, thirdPresent]
  | cons k ks =>
    cases ks with
    | nil => simp [valCounts, thirdPresent]
    | cons v vs => cases v <;> simp [valCounts, thirdPresent]

/-- The resolver on a list whose verb is in the table, in the claim's vocabulary. -/
theorem getCommand_of_lookup (fn : Bytes) (rest : List Bytes) (m : Nat)
    (hm : requiredArgs.lookup fn = some m) :
    getCommand (fn :: rest) =
      if countedArgs m (fn :: rest) < m then (Command.zero, some errNotEnough)
      else ({ fn := fn,
              key := if keyCounts (fn :: rest) then (fn :: rest).getD 1 [] else [],
              val := if valCounts m (fn :: rest) then (fn :: rest).getD 2 [] else [],
              jsonPrint := decide (ascii "json" ∈
                (fn :: rest).drop (countedArgs m (fn :: rest) + 1)) }, none) := by
  have hk := hasKey_eq fn rest
  have hv := hasValue_eq fn rest m
  unfold getCommand
  simp only [List.length_cons, Nat.add_one_ne_zero, if_false, List.getD_cons_zero, hm]
  simp only [List.length_cons] at hk hv
  simp only [hk, hv]
  have hc : (if valCounts m (fn :: rest) = true
      then (if keyCounts (fn :: rest) = true then 1 else 0) + 1
      else (if keyCounts (fn :: rest) = true then 1 else 0)) = countedArgs m (fn :: rest) := by
    unfold countedArgs
    split <;> simp
  simp only [hc]
  split
  · rfl
  · rw [foldl_json]
    congr 2
    split
    · simp
    · rename_i h
      have hlen : (fn :: rest).drop (countedArgs m (fn :: rest) + 1) = [] := by
        apply List.drop_eq_nil_of_le
        simp only [List.length_cons] at h ⊢
        omega
      simp [hlen]

theorem lookup_mem_table (fn : Bytes) (m : Nat) (hm : requiredArgs.lookup fn = some m) :
    (fn, m) ∈ requiredArgs := by
  generalize requiredArgs = l at hm
  induction l with
  | nil => simp at hm
  | cons x xs ih =>
    obtain ⟨k, v⟩ := x
    by_cases hk : fn = k
    · subst hk
      simp at hm
      simp [hm]
    · have hk' : (fn == k) = false := by simpa using hk
      simp only [List.lookup, hk'] at hm
      exact List.mem_cons_of_mem _ (ih hm)

theorem lookup_two_iff (fn : Bytes) (m : Nat) (hm : requiredArgs.lookup fn = some m) :
    (1 < m ↔ fn = ascii "put") := by
  constructor
  · intro h1
    have hmem := lookup_mem_table fn m hm
    simp only [requiredArgs, List.mem_cons, Prod.mk.injEq, List.mem_nil_iff, or_false] at hmem
    rcases hmem with h | h | h | h | h | h | h | h | h | h
    all_goals first | exact h.1 | (exfalso; omega)
  · intro h
    subst h
    have h2 : requiredArgs.lookup (ascii "put") = some 2 := by decide
    rw [h2] at hm
    have : m = 2 := (Option.some.inj hm).symm
    omega

theorem lookup_none_iff (fn : Bytes) : requiredArgs.lookup fn = none ↔ fn ∉ verbTable := by
  constructor
  · intro h hmem
    simp only [verbTable, List.mem_cons, List.mem_nil_iff, or_false] at hmem
    rcases hmem with e | e | e | e | e | e | e | e | e | e
    all_goals
      subst e
      revert h
      decide
  · intro h
    rw [List.lookup_eq_none_iff]
    simp only [requiredArgs, verbTable, List.mem_cons, List.mem_nil_iff, or_false] at h ⊢
    intro q hq
    rcases hq with e | e | e | e | e | e | e | e | e | e
    all_goals
      subst e
      simp only [bne_iff_ne, ne_eq]
      intro hfn
      exact h (by simp [hfn])

/-! ## Command resolver: claims -/

/-- C4: when the verb is in the table with minimum `m`, `getCommand` fails with
"not enough arguments" exactly when fewer than `m` positionals count (the key counts iff
a second token exists and is non-empty, the value iff `m > 1` and a third token exists
and is non-empty).  So a verb with `m = 0` never fails on arity, `exists`, `get`, `del`
(`m = 1`) fail iff the second token is missing or empty, and `put` (`m = 2`) fails iff
the second or the third token is missing or empty, as for `put onlykey` and `put k ""`. -/
theorem getCommand_not_enough_iff (fn : Bytes) (rest : List Bytes) (m : Nat)
    (hm : requiredArgs.lookup fn = some m) :
    ((getCommand (fn :: rest)).2 = some errNotEnough ↔ countedArgs m (fn :: rest) < m) ∧
    (m = 0 → (getCommand (fn :: rest)).2 = none) ∧
    (m = 1 → ((getCommand (fn :: rest)).2 = some errNotEnough ↔
        keyCounts (fn :: rest) = false)) ∧
    (m = 2 → ((getCommand (fn :: rest)).2 = some errNotEnough ↔
        (keyCounts (fn :: rest) = false ∨ thirdPresent (fn :: rest) = false))) ∧
    (m = 0 ∨ m = 1 ∨ m = 2) ∧
    (∀ v ∈ [ascii "scan", ascii "stat", ascii "expand", ascii "exit", ascii "quit",
        ascii "it"], requiredArgs.lookup v = some 0) ∧
    (∀ v ∈ [ascii "exists", ascii "get", ascii "del"], requiredArgs.lookup v = some 1) ∧
    requiredArgs.lookup (ascii "put") = some 2 ∧
    (getCommand [ascii "put", ascii "onlykey"]).2 = some errNotEnough ∧
    (getCommand [ascii "put", ascii "k", []]).2 = some errNotEnough := by
  have hle := requiredArgs_lookup_le fn m hm
  have hg := getCommand_of_lookup fn rest m hm
  have hiff : (getCommand (fn :: rest)).2 = some errNotEnough ↔
      countedArgs m (fn :: rest) < m := by
    rw [hg]
    split <;> simp [*]
  refine ⟨hiff, ?_, ?_, ?_, by omega, by decide, by decide, by decide, by decide, by decide⟩
  · intro h0
    rw [hg]
    simp [h0]
  · intro h1
    rw [hiff, h1]
    simp only [countedArgs, valCounts]
    rcases Bool.eq_false_or_eq_true (keyCounts (fn :: rest)) with hk | hk <;> simp [hk]
  · intro h2
    rw [hiff, h2]
    simp only [countedArgs, valCounts]
    rcases Bool.eq_false_or_eq_true (keyCounts (fn :: rest)) with hk | hk <;>
      rcases Bool.eq_false_or_eq_true (thirdPresent (fn :: rest)) with ht | ht <;>
      simp [hk, ht]

/-- C4 at `put onlykey`: the value is missing, one positional counts, and 1 < 2. -/
theorem getCommand_not_enough_iff_witness :
    requiredArgs.lookup (ascii "put") = some 2 ∧
    (getCommand [ascii "put", ascii "onlykey"]).2 = some errNotEnough ∧
    countedArgs 2 [ascii "put", ascii "onlykey"] = 1 :=
  ⟨by decide,
   (getCommand_not_enough_iff (ascii "put") [ascii "onlykey"] 2 (by decide)).1.mpr (by decide),
   by decide⟩

/-- C5: on success the command carries the first token as `fn`, the second token as
`key` when that token exists and is non-empty (otherwise an empty key), the third token
as `val` exactly when the verb is `put` (otherwise an empty value), and `jsonPrint` is
true iff a token after the consumed positionals is `json`.  In particular
`put k v` followed by any further tokens resolves to key `k`, value `v` and
`jsonPrint` = (`json` is among the further tokens). -/
theorem getCommand_success_fields (args : List Bytes) (hok : (getCommand args).2 = none) :
    (∃ fn rest m, args = fn :: rest ∧ requiredArgs.lookup fn = some m ∧
      (getCommand args).1.fn = fn ∧
      (keyCounts args = true → args[1]? = some (getCommand args).1.key) ∧
      (keyCounts args = false → (getCommand args).1.key = []) ∧
      (fn = ascii "put" → args[2]? = some (getCommand args).1.val ∧
          (getCommand args).1.val ≠ []) ∧
      (fn ≠ ascii "put" → (getCommand args).1.val = []) ∧
      ((getCommand args).1.jsonPrint = true ↔
          ascii "json" ∈ args.drop (countedArgs m args + 1))) ∧
    (∀ k v : Bytes, ∀ extra : List Bytes, k ≠ [] → v ≠ [] →
      getCommand ([ascii "put", k, v] ++ extra)
        = ({ fn := ascii "put", key := k, val := v,
             jsonPrint := decide (ascii "json" ∈ extra) }, none)) := by
  constructor
  · cases args with
    | nil => simp [getCommand] at hok
    | cons fn rest =>
      cases hl : requiredArgs.lookup fn with
      | none => simp [getCommand, hl] at hok
      | some m =>
        have hg := getCommand_of_lookup fn rest m hl
        have hput := lookup_two_iff fn m hl
        have hnot : ¬ countedArgs m (fn :: rest) < m := by
          intro hlt
          rw [hg, if_pos hlt] at hok
          simp at hok
        rw [if_neg hnot] at hg
        refine ⟨fn, rest, m, rfl, hl, ?_, ?_, ?_, ?_, ?_, ?_⟩
        · rw [hg]
        · intro hk
          rw [hg]
          simp only [hk, if_true]
          cases rest with
          | nil => simp [keyCounts] at hk
          | cons k ks => simp
        · intro hk
          rw [hg]
          simp [hk]
        · intro hp
          have h1 : 1 < m := hput.mpr hp
          have hle := requiredArgs_lookup_le fn m hl
          have hv : valCounts m (fn :: rest) = true := by
            by_contra hv
            simp only [countedArgs, hv] at hnot
            split at hnot <;> simp at hnot <;> omega
          rw [hg]
          simp only [hv, if_true]
          have ht : thirdPresent (fn :: rest) = true := by
            simp only [valCounts, Bool.and_eq_true] at hv
            exact hv.2
          cases rest with
          | nil => simp [thirdPresent] at ht
          | cons k ks =>
            cases ks with
            | nil => simp [thirdPresent] at ht
            | cons v vs =>
              cases v with
              | nil => simp [thirdPresent] at ht
              | cons b bs => simp
        · intro hp
          have h1 : ¬ 1 < m := fun h => hp (hput.mp h)
          rw [hg]
          simp [valCounts, h1]
        · rw [hg]
          simp
  · intro k v extra hk hv
    have hl : requiredArgs.lookup (ascii "put") = some 2 := by decide
    have hg := getCommand_of_lookup (ascii "put") (k :: v :: extra) 2 hl
    have hkc : keyCounts (ascii "put" :: k :: v :: extra) = true := by
      cases k with
      | nil => exact absurd rfl hk
      | cons b bs => simp [keyCounts]
    have hvc : valCounts 2 (ascii "put" :: k :: v :: extra) = true := by
      cases v with
      | nil => exact absurd rfl hv
      | cons b bs => simp [valCounts, thirdPresent]
    have hc : countedArgs 2 (ascii "put" :: k :: v :: extra) = 2 := by
      simp [countedArgs, hkc, hvc]
    simp only [List.cons_append, List.nil_append]
    rw [hg]
    simp [hc, hkc, hvc]

/-- C5 at the tokens of `put k v extra json`. -/
theorem getCommand_success_fields_witness :
    (getCommand [ascii "put", ascii "k", ascii "v", ascii "extra", ascii "json"]).2 = none ∧
    getCommand ([ascii "put", ascii "k", ascii "v"] ++ [ascii "extra", ascii "json"])
      = ({ fn := ascii "put", key := ascii "k", val := ascii "v", jsonPrint := true }, none) :=
  ⟨by decide,
   (getCommand_success_fields
      [ascii "put", ascii "k", ascii "v", ascii "extra", ascii "json"] (by decide)).2
      (ascii "k") (ascii "v") [ascii "extra", ascii "json"] (by decide) (by decide)⟩

/-- C6: `getCommand` fails with "empty command" iff there is no token, and with
"invalid command" iff there is a first token and it is not, byte for byte, one of the
ten verbs; the tokens after the first change neither outcome. -/
theorem getCommand_empty_invalid (args : List Bytes) :
    ((getCommand args).2 = some errEmptyCommand ↔ args = []) ∧
    ((getCommand args).2 = some errInvalidCommand ↔
        ∃ fn rest, args = fn :: rest ∧ fn ∉ verbTable) ∧
    (∀ fn rest rest₂,
      ((getCommand (fn :: rest)).2 = some errInvalidCommand ↔
        (getCommand (fn :: rest₂)).2 = some errInvalidCommand) ∧
      (getCommand (fn :: rest)).2 ≠ some errEmptyCommand) := by
  have hne : errNotEnough ≠ errInvalidCommand := by decide
  have hne2 : errNotEnough ≠ errEmptyCommand := by decide
  have hne3 : errInvalidCommand ≠ errEmptyCommand := by decide
  have key : ∀ fn rest, ((getCommand (fn :: rest)).2 = some errInvalidCommand ↔
      fn ∉ verbTable) ∧ (getCommand (fn :: rest)).2 ≠ some errEmptyCommand := by
    intro fn rest
    rw [← lookup_none_iff]
    cases hl : requiredArgs.lookup fn with
    | none => 
      have : getCommand (fn :: rest) = (Command.zero, some errInvalidCommand) := by
        simp [getCommand, hl, errInvalidCommand]
      rw [this]
      exact ⟨by simp, by simpa using hne3⟩
    | some m =>
      rw [getCommand_of_lookup fn rest m hl]
      split
      · exact ⟨by simpa using hne, by simpa using hne2⟩
      · simp
  refine ⟨?_, ?_, ?_⟩
  · cases args with
    | nil => simp [getCommand, errEmptyCommand]
    | cons fn rest => simpa using (key fn rest).2
  · cases args with
    | nil =>
      have : (getCommand []).2 = some errEmptyCommand := by simp [getCommand, errEmptyCommand]
      rw [this]
      simpa using hne3.symm
    | cons fn rest =>
      rw [(key fn rest).1]
      simp
  · intro fn rest rest₂
    exact ⟨by rw [(key fn rest).1, (key fn rest₂).1], (key fn rest).2⟩

/-! ## Page loop: lemmas -/

theorem iterateLoop_eq_pageLoop (d : Deps σ κ) (todo : Nat) (cursor : Cursor κ) (first : Bool)
    (context : Context σ κ) :
    iterateLoop d todo cursor first context
      = pageLoop d emitPair todo cursor (first && cursor.Prefix.isSome) context := by
  induction todo generalizing cursor first context with
  | zero => rfl
  | succ n ih =>
    unfold iterateLoop pageLoop
    simp only [ih]
    by_cases hs : (first && cursor.Prefix.isSome) = true
    · simp [hs, Context.CloseCursor, Context.Output, emitPair]
    · have hs' : (first && cursor.Prefix.isSome) = false := by simpa using hs
      simp [hs', Context.CloseCursor, Context.Output, emitPair]

theorem executeLoop_eq_pageLoop (d : Deps σ κ) (todo : Nat) (cursor : Cursor κ) (first : Bool)
    (context : Context σ κ) :
    Iterate.executeLoop d todo cursor first context
      = pageLoop d emitEntry todo cursor (first && cursor.Prefix.isSome) context := by
  induction todo generalizing cursor first context with
  | zero => rfl
  | succ n ih =>
    unfold Iterate.executeLoop pageLoop
    simp only [ih]
    by_cases hi : cursor.IncludeValues = true
    · simp [hi, Context.CloseCursor, Context.Output, emitEntry]
    · have hi' : cursor.IncludeValues = false := by simpa using hi
      simp [hi', Context.CloseCursor, Context.Output, emitEntry]

theorem iterate_eq_pageCall (d : Deps σ κ) (context : Context σ κ) (first : Bool) :
    iterate d context first = pageCall d emitPair 10 context first := by
  unfold iterate pageCall
  cases context.cursor with
  | none => rfl
  | some cursor => simp [iterateLoop_eq_pageLoop]

theorem execute_eq_pageCall (cmd : Iterate) (d : Deps σ κ) (context : Context σ κ)
    (first : Bool) :
    cmd.execute d context first = pageCall d emitEntry cmd.PageSize.toNat context first := by
  unfold Iterate.execute pageCall
  cases context.cursor with
  | none => rfl
  | some cursor => simp [executeLoop_eq_pageLoop]

theorem withinBound_iff (p : Option Bytes) (e : Bytes × Bytes) :
    withinBound p e = true ↔ ¬ (p.isSome = true ∧ ¬ (p.getD []) <+: e.1) := by
  cases p <;> simp [withinBound]

/-- One call of the page loop over the store in memory, in closed form: the page is
the run of entries within the bound, cut at the page size. -/
theorem pageLoop_mem (ji : Bytes → Bytes × Option Error) (se : Int → Bytes)
    (emit : Bool → Bytes → Bytes → List Bytes) (n : Nat) (cursor : Cursor MemCursor)
    (seek : Bool) (context : Context (List (Bytes × Bytes)) MemCursor) :
    pageLoop (memStore ji se) emit n cursor seek context =
      if ((startRest cursor seek).takeWhile (withinBound cursor.Prefix)).length < n then
        ({ context with
            cursor := none,
            out := context.out ++
              ((startRest cursor seek).takeWhile (withinBound cursor.Prefix)).flatMap
                (fun e => emit cursor.IncludeValues e.1 e.2) }, none)
      else
        ({ context with
            cursor := if n = 0 then context.cursor else
              some { cursor with
                handle := { all := cursor.handle.all, rest := (startRest cursor seek).drop n } },
            out := context.out ++
              (((startRest cursor seek).takeWhile (withinBound cursor.Prefix)).take n).flatMap
                (fun e => emit cursor.IncludeValues e.1 e.2) ++ [SCAN_MORE] }, none) := by
  induction n generalizing cursor seek context with
  | zero => simp [pageLoop, Context.Output]
  | succ n ih =>
    unfold pageLoop
    have hget : (if seek = true
        then (memStore ji se).cursorGet cursor.handle (cursor.Prefix.getD []) CursorOp.SET_RANGE
        else (memStore ji se).cursorGet cursor.handle [] CursorOp.NEXT)
        = match startRest cursor seek with
          | [] => (([], [], some NotFound),
              if seek = true then { cursor.handle with rest := [] } else cursor.handle)
          | e :: r => ((e.1, e.2, none), { cursor.handle with rest := r }) := by
      cases seek with
      | true =>
        simp only [startRest, memStore, memCursorGet, if_true]
      | false =>
        simp only [startRest, memStore, memCursorGet]
        split <;> simp_all
    simp only [hget]
    cases hr : startRest cursor seek with
    | nil => simp
    | cons e r =>
      simp only [List.takeWhile_cons]
      by_cases hw : withinBound cursor.Prefix e = true
      · have hcond : ¬ ((none : Option Error) = some NotFound ∨
            (cursor.Prefix.isSome = true ∧ ¬ (cursor.Prefix.getD []) <+: e.1)) := by
          intro h
          rcases h with h | h
          · cases h
          · exact (withinBound_iff _ _).mp hw h
        simp only [hcond, if_false, hw, if_true, ne_eq, not_true_eq_false]
        rw [ih]
        have hstart : startRest { cursor with handle := { cursor.handle with rest := r } } false
            = r := rfl
        simp only [hstart, List.length_cons, Nat.add_lt_add_iff_right]
        split
        · simp
        · by_cases hn : n = 0
          · subst hn
            simp
          · simp [hn]
      · have hw' : withinBound cursor.Prefix e = false := by simpa using hw
        have hcond : ((none : Option Error) = some NotFound ∨
            (cursor.Prefix.isSome = true ∧ ¬ (cursor.Prefix.getD []) <+: e.1)) := by
          right
          by_contra h
          exact hw ((withinBound_iff _ _).mpr h)
        simp only [hcond, if_true, hw']
        simp

/-! ## Key order: lemmas -/

theorem keyLt_cons (a b : Byte) (as bs : Bytes) :
    keyLt (a :: as) (b :: bs) = (decide (a < b) || (a == b && keyLt as bs)) := rfl

/-- A key that is not below the bound and lies below a key within the bound is within
the bound itself. -/
theorem bound_of_keyLt (p k₁ k₂ : Bytes) (h₁ : keyLt k₁ p = false)
    (h₂ : keyLt k₁ k₂ = true) (h₃ : p <+: k₂) : p <+: k₁ := by
  induction p generalizing k₁ k₂ with
  | nil => exact List.nil_prefix
  | cons a p ih =>
    cases k₂ with
    | nil => simp at h₃
    | cons b k₂ =>
      rw [List.cons_prefix_cons] at h₃
      obtain ⟨hab, hp⟩ := h₃
      subst hab
      cases k₁ with
      | nil => simp [keyLt] at h₁
      | cons c k₁ =>
        rw [keyLt_cons] at h₁ h₂
        simp only [Bool.or_eq_false_iff, decide_eq_false_iff_not, Bool.and_eq_false_imp,
          beq_iff_eq] at h₁
        simp only [Bool.or_eq_true, decide_eq_true_eq, Bool.and_eq_true, beq_iff_eq] at h₂
        rcases h₂ with h₂ | ⟨hca, h₂⟩
        · exact absurd h₂ h₁.1
        · subst hca
          rw [List.cons_prefix_cons]
          exact ⟨rfl, ih k₁ k₂ (h₁.2 rfl) h₂ hp⟩

/-- A key above a key within the bound is not below the bound. -/
theorem not_keyLt_of_bound (p k₁ k₂ : Bytes) (h₁ : p <+: k₁) (h₂ : keyLt k₁ k₂ = true) :
    keyLt k₂ p = false := by
  induction p generalizing k₁ k₂ with
  | nil => cases k₂ <;> rfl
  | cons a p ih =>
    cases k₁ with
    | nil => simp at h₁
    | cons b k₁ =>
      rw [List.cons_prefix_cons] at h₁
      obtain ⟨hab, hp⟩ := h₁
      subst hab
      cases k₂ with
      | nil => simp [keyLt] at h₂
      | cons c k₂ =>
        rw [keyLt_cons] at h₂ ⊢
        simp only [Bool.or_eq_true, decide_eq_true_eq, Bool.and_eq_true, beq_iff_eq] at h₂
        simp only [Bool.or_eq_false_iff, decide_eq_false_iff_not, Bool.and_eq_false_imp,
          beq_iff_eq]
        rcases h₂ with h₂ | ⟨hac, h₂⟩
        · exact ⟨fun h => absurd h₂ (lt_asymm h), fun h => absurd h₂ (by rw [h]; exact lt_irrefl _)⟩
        · subst hac
          exact ⟨lt_irrefl _, fun _ => ih k₁ k₂ hp h₂⟩

/-- A key within the bound is not below the bound. -/
theorem not_keyLt_self_of_bound (p k : Bytes) (h : p <+: k) : keyLt k p = false := by
  induction p generalizing k with
  | nil => cases k <;> rfl
  | cons a p ih =>
    cases k with
    | nil => simp at h
    | cons b k =>
      rw [List.cons_prefix_cons] at h
      obtain ⟨hab, hp⟩ := h
      subst hab
      rw [keyLt_cons]
      simp [ih k hp]

/-- In an ascending list that starts at or above the bound, the entries within the
bound are an initial run. -/
theorem takeWhile_eq_filter_of_ascending (p : Bytes) (l : List (Bytes × Bytes))
    (hs : Ascending l) (hh : ∀ e ∈ l.head?, keyLt e.1 p = false) :
    l.takeWhile (fun e => decide (p <+: e.1)) = l.filter (fun e => decide (p <+: e.1)) := by
  induction l with
  | nil => rfl
  | cons h t ih =>
    have hs' : Ascending t := (List.pairwise_cons.mp hs).2
    have hlt : ∀ x ∈ t, keyLt h.1 x.1 = true := (List.pairwise_cons.mp hs).1
    have hh' : keyLt h.1 p = false := hh h (by simp)
    by_cases hq : p <+: h.1
    · have hth : ∀ e ∈ t.head?, keyLt e.1 p = false := by
        intro e he
        have hmem : e ∈ t := List.mem_of_mem_head? he
        exact not_keyLt_of_bound p h.1 e.1 hq (hlt e hmem)
      simp [List.takeWhile_cons, List.filter_cons, hq, ih hs' hth]
    · have hnone : ∀ x ∈ t, ¬ p <+: x.1 := by
        intro x hx hpx
        exact hq (bound_of_keyLt p h.1 x.1 hh' (hlt x hx) hpx)
      have hf : t.filter (fun e => decide (p <+: e.1)) = [] := by
        rw [List.filter_eq_nil_iff]
        intro x hx
        simpa using hnone x hx
      simp [List.takeWhile_cons, List.filter_cons, hq, hf]

theorem head_dropWhile (d : Bytes × Bytes → Bool) (l : List (Bytes × Bytes)) :
    ∀ e ∈ (l.dropWhile d).head?, d e = false := by
  induction l with
  | nil => simp
  | cons h t ih =>
    by_cases hd : d h = true
    · simpa [List.dropWhile_cons, hd] using ih
    · have hd' : d h = false := by simpa using hd
      simp [List.dropWhile_cons, hd']

theorem filter_dropWhile (d q : Bytes × Bytes → Bool) (l : List (Bytes × Bytes))
    (hdq : ∀ e, d e = true → q e = false) :
    (l.dropWhile d).filter q = l.filter q := by
  induction l with
  | nil => rfl
  | cons h t ih =>
    by_cases hd : d h = true
    · simp [List.dropWhile_cons, hd, List.filter_cons, hdq h hd, ih]
    · have hd' : d h = false := by simpa using hd
      simp [List.dropWhile_cons, hd']

/-- Over an ascending store, the run a bounded scan reads after its seek is the list
of entries within the bound. -/
theorem run_eq_matching (p : Bytes) (es : List (Bytes × Bytes)) (hs : Ascending es) :
    (es.dropWhile (fun e => keyLt e.1 p)).takeWhile (fun e => decide (p <+: e.1))
      = matching p es := by
  have hs' : Ascending (es.dropWhile (fun e => keyLt e.1 p)) :=
    List.Pairwise.sublist (List.dropWhile_sublist _) hs
  rw [takeWhile_eq_filter_of_ascending p _ hs' (head_dropWhile _ es)]
  apply filter_dropWhile
  intro e he
  by_contra hq
  have hq' : p <+: e.1 := by simpa using hq
  rw [not_keyLt_self_of_bound p e.1 hq'] at he
  cases he

theorem takeWhile_drop (q : Bytes × Bytes → Bool) (l : List (Bytes × Bytes)) (k : Nat)
    (hk : k ≤ (l.takeWhile q).length) :
    (l.drop k).takeWhile q = (l.takeWhile q).drop k := by
  induction k generalizing l with
  | zero => rfl
  | succ k ih =>
    cases l with
    | nil => rfl
    | cons h t =>
      by_cases hq : q h = true
      · simp only [List.takeWhile_cons, hq, if_true, List.length_cons] at hk
        simp only [List.drop_succ_cons, List.takeWhile_cons, hq, if_true]
        exact ih t (by omega)
      · have hq' : q h = false := by simpa using hq
        simp [List.takeWhile_cons, hq'] at hk

/-! ## Pages in sequence: lemmas -/

theorem pageEntries_flatten (n j : Nat) (m : List (Bytes × Bytes)) :
    (pageEntries n j m).flatten ++ m.drop (j * n) = m := by
  induction j generalizing m with
  | zero => simp [pageEntries]
  | succ j ih =>
    have h := ih (m.drop n)
    rw [List.drop_drop] at h
    have e : n + j * n = (j + 1) * n := by ring
    rw [e] at h
    simp only [pageEntries, List.flatten_cons, List.append_assoc, h]
    exact List.take_append_drop n m

theorem pageEntries_length (n j : Nat) (m : List (Bytes × Bytes)) (h : j * n ≤ m.length) :
    ∀ pg ∈ pageEntries n j m, pg.length = n := by
  induction j generalizing m with
  | zero => simp [pageEntries]
  | succ j ih =>
    have h1 : n ≤ m.length := by nlinarith
    have h2 : j * n ≤ (m.drop n).length := by
      rw [List.length_drop]
      have : (j + 1) * n = j * n + n := by ring
      omega
    intro pg hpg
    simp only [pageEntries, List.mem_cons] at hpg
    rcases hpg with hpg | hpg
    · rw [hpg, List.length_take]
      omega
    · exact ih (m.drop n) h2 pg hpg

theorem pageTimes_succ_last (d : Deps σ κ) (emit : Bool → Bytes → Bytes → List Bytes)
    (n j : Nat) (c : Context σ κ) :
    pageTimes d emit n (j + 1) c = (pageCall d emit n (pageTimes d emit n j c) false).1 := by
  induction j generalizing c with
  | zero => rfl
  | succ j ih =>
    rw [pageTimes, ih]
    rfl

/-- After `j` full pages read with `NEXT` over the store in memory the cursor stands
`j * n` entries further and the pages have been emitted, each with its marker. -/
theorem pageTimes_mem_full (ji : Bytes → Bytes × Option Error) (se : Int → Bytes)
    (emit : Bool → Bytes → Bytes → List Bytes) (n j : Nat) (hn : 0 < n)
    (c : Context (List (Bytes × Bytes)) MemCursor) (cursor : Cursor MemCursor)
    (hc : c.cursor = some cursor)
    (hj : j * n ≤ (cursor.handle.rest.takeWhile (withinBound cursor.Prefix)).length) :
    pageTimes (memStore ji se) emit n j c =
      { c with
          cursor := some { cursor with
            handle := { all := cursor.handle.all, rest := cursor.handle.rest.drop (j * n) } },
          out := c.out ++ pagesOut (emit cursor.IncludeValues)
            (pageEntries n j (cursor.handle.rest.takeWhile (withinBound cursor.Prefix))) } := by
  induction j generalizing c cursor with
  | zero =>
    simp only [pageTimes, Nat.zero_mul, List.drop_zero, pageEntries, pagesOut,
      List.flatMap_nil, List.append_nil]
    rw [← hc]
  | succ j ih =>
    have e : (j + 1) * n = j * n + n := by ring
    have h1 : ¬ (cursor.handle.rest.takeWhile (withinBound cursor.Prefix)).length < n := by
      omega
    have hn0 : n ≠ 0 := by omega
    rw [pageTimes]
    have hcall : pageCall (memStore ji se) emit n c false =
        ({ c with
            cursor := some { cursor with
              handle := { all := cursor.handle.all, rest := cursor.handle.rest.drop n } },
            out := c.out ++
              ((cursor.handle.rest.takeWhile (withinBound cursor.Prefix)).take n).flatMap
                (fun e => emit cursor.IncludeValues e.1 e.2) ++ [SCAN_MORE] }, none) := by
      simp only [pageCall, hc, Bool.false_and]
      rw [pageLoop_mem]
      simp only [startRest, Bool.false_eq_true, if_false, h1, hn0]
    rw [hcall]
    have htw := takeWhile_drop (withinBound cursor.Prefix) cursor.handle.rest n (by omega)
    rw [ih _ { cursor with
        handle := { all := cursor.handle.all, rest := cursor.handle.rest.drop n } } rfl
      (by
        simp only [htw, List.length_drop]
        omega)]
    simp only [htw, List.drop_drop, pageEntries, pagesOut, List.flatMap_cons,
      List.append_assoc]
    have e2 : n + j * n = (j + 1) * n := by ring
    rw [e2]

/-! ## Scan over the store in memory: lemmas -/

theorem prepareCursor_mem (ji : Bytes → Bytes × Option Error) (se : Int → Bytes)
    (c₀ : Context (List (Bytes × Bytes)) MemCursor) (val : Bytes) (incl : Bool) :
    c₀.PrepareCursor (memStore ji se) val incl =
      ({ c₀ with
          cursor := some { handle := { all := c₀.store, rest := c₀.store },
                           Prefix := if val = [] then none else some val,
                           IncludeValues := incl } }, none) := by
  simp [Context.PrepareCursor, Context.CloseCursor, memStore]

/-- The run of entries the first page of a prepared scan reads is the list of matching
entries. -/
theorem run_prepared (es : List (Bytes × Bytes)) (hs : Ascending es) (val : Bytes)
    (incl : Bool) (cursor : Cursor MemCursor)
    (hcur : cursor = { handle := { all := es, rest := es },
                       Prefix := if val = [] then none else some val,
                       IncludeValues := incl }) :
    (startRest cursor (true && cursor.Prefix.isSome)).takeWhile (withinBound cursor.Prefix)
      = matching val es := by
  subst hcur
  by_cases hv : val = []
  · subst hv
    simp [startRest, withinBound, matching]
  · simp only [hv, if_false, Option.isSome_some, Bool.and_self, startRest, if_true,
      Option.getD_some]
    exact run_eq_matching val es hs

/-- The first page of a prepared scan and `j` further pages, all of them full. -/
theorem scanPages_full (ji : Bytes → Bytes × Option Error) (se : Int → Bytes)
    (emit : Bool → Bytes → Bytes → List Bytes) (n : Nat) (hn : 0 < n)
    (c₀ : Context (List (Bytes × Bytes)) MemCursor) (hs : Ascending c₀.store)
    (val : Bytes) (incl : Bool) (j : Nat)
    (hj : (j + 1) * n ≤ (matching val c₀.store).length) :
    ∃ rest, pageTimes (memStore ji se) emit n j
        (pageCall (memStore ji se) emit n
          (c₀.PrepareCursor (memStore ji se) val incl).1 true).1 =
      { c₀ with
          cursor := some
            { handle := { all := c₀.store, rest := rest },
              Prefix := if val = [] then none else some val,
              IncludeValues := incl },
          out := c₀.out ++ pagesOut (emit incl)
            (pageEntries n (j + 1) (matching val c₀.store)) } ∧
      rest.takeWhile (withinBound (if val = [] then none else some val))
        = (matching val c₀.store).drop ((j + 1) * n) ∧
      (pageCall (memStore ji se) emit n
          (c₀.PrepareCursor (memStore ji se) val incl).1 true).2 = none := by
  have e : (j + 1) * n = j * n + n := by ring
  obtain ⟨cur, hcur⟩ : ∃ cur : Cursor MemCursor,
      cur = { handle := { all := c₀.store, rest := c₀.store },
              Prefix := if val = [] then none else some val,
              IncludeValues := incl } := ⟨_, rfl⟩
  have hrun := run_prepared c₀.store hs val incl cur hcur
  obtain ⟨R, hR⟩ : ∃ R : List (Bytes × Bytes),
      R = startRest cur (true && cur.Prefix.isSome) := ⟨_, rfl⟩
  rw [← hR] at hrun
  have hP : cur.Prefix = if val = [] then none else some val := by rw [hcur]
  have hI : cur.IncludeValues = incl := by rw [hcur]
  have hA : cur.handle.all = c₀.store := by rw [hcur]
  have hn0 : n ≠ 0 := by omega
  have h1 : ¬ (matching val c₀.store).length < n := by omega
  have hcall : pageCall (memStore ji se) emit n
      (c₀.PrepareCursor (memStore ji se) val incl).1 true =
      ({ c₀ with
          cursor := some { cur with handle := { all := c₀.store, rest := R.drop n } },
          out := c₀.out ++ ((matching val c₀.store).take n).flatMap
            (fun e => emit incl e.1 e.2) ++ [SCAN_MORE] }, none) := by
    rw [prepareCursor_mem, ← hcur]
    simp only [pageCall]
    rw [pageLoop_mem, ← hR, hrun]
    simp only [h1, hn0, if_false, hI, hA]
  rw [hcall]
  simp only
  have htw := takeWhile_drop (withinBound cur.Prefix) R n (by
    rw [hrun]
    omega)
  rw [hrun] at htw
  rw [pageTimes_mem_full ji se emit n j hn _
    { cur with handle := { all := c₀.store, rest := R.drop n } } rfl (by
      simp only [htw, List.length_drop]
      omega)]
  refine ⟨(R.drop n).drop (j * n), ?_, ?_, trivial⟩
  · have htw₂ := htw
    rw [hP] at htw₂
    simp only [htw₂, pageEntries, pagesOut, List.flatMap_cons, List.append_assoc, hP, hI]
  · rw [← hP, takeWhile_drop _ _ _ (by
      simp only [htw, List.length_drop]
      omega), htw, List.drop_drop]
    congr 1
    ring

/-- The pages of a prepared scan up to and including the page that is not full, which
closes the cursor. -/
theorem scanPages_last (ji : Bytes → Bytes × Option Error) (se : Int → Bytes)
    (emit : Bool → Bytes → Bytes → List Bytes) (n : Nat) (hn : 0 < n)
    (c₀ : Context (List (Bytes × Bytes)) MemCursor) (hs : Ascending c₀.store)
    (val : Bytes) (incl : Bool) (q : Nat)
    (hq : q * n ≤ (matching val c₀.store).length)
    (hlt : (matching val c₀.store).length < (q + 1) * n) :
    pageTimes (memStore ji se) emit n q
        (pageCall (memStore ji se) emit n
          (c₀.PrepareCursor (memStore ji se) val incl).1 true).1 =
      { c₀ with
          cursor := none,
          out := c₀.out ++ pagesOut (emit incl) (pageEntries n q (matching val c₀.store))
            ++ ((matching val c₀.store).drop (q * n)).flatMap (fun e => emit incl e.1 e.2) } := by
  have e : (q + 1) * n = q * n + n := by ring
  cases q with
  | zero =>
    have hrun := run_prepared c₀.store hs val incl _ rfl
    have h1 : (matching val c₀.store).length < n := by omega
    simp only [pageTimes]
    rw [prepareCursor_mem]
    simp only [pageCall]
    rw [pageLoop_mem, hrun]
    simp [h1, pageEntries, pagesOut]
  | succ j =>
    obtain ⟨rest, hfull, hrest, _⟩ := scanPages_full ji se emit n hn c₀ hs val incl j hq
    rw [pageTimes_succ_last, hfull]
    simp only [pageCall, Bool.false_and]
    rw [pageLoop_mem]
    simp only [startRest, Bool.false_eq_true, if_false, hrest, List.length_drop]
    have h1 : (matching val c₀.store).length - (j + 1) * n < n := by omega
    simp [h1]

theorem itTimes_eq_pageTimes (d : Deps σ κ) (j : Nat) (c : Context σ κ) :
    itTimes d j c = pageTimes d emitPair 10 j c := by
  induction j generalizing c with
  | zero => rfl
  | succ j ih => simp only [itTimes, pageTimes, iterate_eq_pageCall, ih]

theorem executeTimes_eq_pageTimes (cmd : Iterate) (d : Deps σ κ) (j : Nat)
    (c : Context σ κ) :
    cmd.executeTimes d j c = pageTimes d emitEntry cmd.PageSize.toNat j c := by
  induction j generalizing c with
  | zero => rfl
  | succ j ih => simp only [Iterate.executeTimes, pageTimes, execute_eq_pageCall, ih]

theorem scan_mem (ji : Bytes → Bytes × Option Error) (se : Int → Bytes)
    (c₀ : Context (List (Bytes × Bytes)) MemCursor) (val : Bytes) :
    scan (memStore ji se) c₀ val
      = pageCall (memStore ji se) emitPair 10
          (c₀.PrepareCursor (memStore ji se) val true).1 true := by
  unfold scan
  rw [prepareCursor_mem]
  simp only [iterate_eq_pageCall]

/-! ## Scan: claims -/

/-- C7 (as amended): over an ascending store, when fewer entries match the bound than
the page size, the first page emits exactly the matching entries in key order (key,
then value; `Iterate.execute` adds an empty output after each value, and emits the keys
alone when values are not included), emits no continuation marker, returns no error and
leaves the cursor closed.  `iterate` of `cli.go` has the page size 10.  So the scan
with bound `a` over `{a1:x, a2:y, b1:z}` emits `a1`, `x`, `a2`, `y` without a marker for
every page size from 3 on. -/
theorem scan_short_page (ji : Bytes → Bytes × Option Error) (se : Int → Bytes)
    (c₀ : Context (List (Bytes × Bytes)) MemCursor) (hs : Ascending c₀.store)
    (val : Bytes) :
    ((matching val c₀.store).length < 10 →
      scan (memStore ji se) c₀ val =
        ({ c₀ with
            cursor := none,
            out := c₀.out ++ (matching val c₀.store).flatMap (fun e => [e.1, e.2]) },
          none)) ∧
    (∀ (n : Nat) (incl : Bool), (matching val c₀.store).length < n →
      ({ PageSize := (n : Int) } : Iterate).execute (memStore ji se)
          (c₀.PrepareCursor (memStore ji se) val incl).1 true =
        ({ c₀ with
            cursor := none,
            out := c₀.out ++
              (matching val c₀.store).flatMap (fun e => emitEntry incl e.1 e.2) },
          none)) ∧
    ((scan plainStore (freshContext exampleStore) (ascii "a")).1.out
        = [ascii "a1", ascii "x", ascii "a2", ascii "y"] ∧
      (scan plainStore (freshContext exampleStore) (ascii "a")).1.cursor.isSome = false ∧
      (scan plainStore (freshContext exampleStore) (ascii "a")).2 = none) ∧
    (∀ n : Nat, 3 ≤ n →
      (({ PageSize := (n : Int) } : Iterate).execute plainStore
          ((freshContext exampleStore).PrepareCursor plainStore (ascii "a") true).1 true).1.out
        = [ascii "a1", ascii "x", [], ascii "a2", ascii "y", []] ∧
      (({ PageSize := (n : Int) } : Iterate).execute plainStore
          ((freshContext exampleStore).PrepareCursor plainStore (ascii "a") true).1
          true).1.cursor.isSome = false ∧
      (({ PageSize := (n : Int) } : Iterate).execute plainStore
          ((freshContext exampleStore).PrepareCursor plainStore (ascii "a") true).1 true).2
        = none) := by
  have general : ∀ (ji : Bytes → Bytes × Option Error) (se : Int → Bytes)
      (c₀ : Context (List (Bytes × Bytes)) MemCursor) (_ : Ascending c₀.store)
      (val : Bytes) (n : Nat) (incl : Bool), (matching val c₀.store).length < n →
      ({ PageSize := (n : Int) } : Iterate).execute (memStore ji se)
          (c₀.PrepareCursor (memStore ji se) val incl).1 true =
        ({ c₀ with
            cursor := none,
            out := c₀.out ++
              (matching val c₀.store).flatMap (fun e => emitEntry incl e.1 e.2) },
          none) := by
    intro ji se c₀ hs val n incl hlt
    have hn : 0 < n := by omega
    have h := scanPages_last ji se emitEntry n hn c₀ hs val incl 0 (by simp) (by simpa using hlt)
    simp only [pageTimes, pageEntries, pagesOut, List.flatMap_nil, List.append_nil,
      Nat.zero_mul, List.drop_zero] at h
    rw [execute_eq_pageCall]
    simp only [Int.toNat_ofNat]
    rw [prepareCursor_mem] at h ⊢
    simp only [pageCall] at h ⊢
    rw [pageLoop_mem] at h ⊢
    have hrun := run_prepared c₀.store hs val incl _ rfl
    rw [hrun] at h ⊢
    simp only [hlt, if_true]
  refine ⟨?_, general ji se c₀ hs val, ?_, ?_⟩
  · intro hlt
    have h := scanPages_last ji se emitPair 10 (by decide) c₀ hs val true 0 (by simp)
      (by simpa using hlt)
    simp only [pageTimes, pageEntries, pagesOut, List.flatMap_nil, List.append_nil,
      Nat.zero_mul, List.drop_zero] at h
    rw [scan_mem]
    rw [prepareCursor_mem] at h ⊢
    simp only [pageCall] at h ⊢
    rw [pageLoop_mem] at h ⊢
    have hrun := run_prepared c₀.store hs val true _ rfl
    rw [hrun] at h ⊢
    simp only [hlt, if_true, emitPair]
  · decide
  · intro n hn
    have hm : matching (ascii "a") exampleStore
        = [(ascii "a1", ascii "x"), (ascii "a2", ascii "y")] := by decide
    have h := general (fun data => (data, none)) (fun _ => []) (freshContext exampleStore)
      (by decide) (ascii "a") n true
      (by
        show (matching (ascii "a") exampleStore).length < n
        rw [hm]
        simpa using (by omega : 2 < n))
    have hstore : (freshContext exampleStore).store = exampleStore := rfl
    rw [hstore, hm] at h
    have h₂ : ({ PageSize := (n : Int) } : Iterate).execute plainStore
        ((freshContext exampleStore).PrepareCursor plainStore (ascii "a") true).1 true
        = ({ store := exampleStore, cursor := none,
             out := [ascii "a1", ascii "x", [], ascii "a2", ascii "y", []],
             prompts := 0 }, none) := h
    rw [h₂]
    exact ⟨rfl, rfl, rfl⟩

/-- C7 at the example store with the bound `a`: both entries, no marker, cursor closed. -/
theorem scan_short_page_witness :
    Ascending exampleStore ∧
    scan plainStore (freshContext exampleStore) (ascii "a") =
      ({ freshContext exampleStore with
          cursor := none,
          out := [ascii "a1", ascii "x", ascii "a2", ascii "y"] }, none) :=
  ⟨by decide,
   (scan_short_page (fun data => (data, none)) (fun _ => []) (freshContext exampleStore)
      (by decide) (ascii "a")).1 (by decide)⟩

/-- C7 (as stated) fails at the page size 2: the two matching entries fill the page, so
the continuation marker is emitted and the cursor stays open; likewise `iterate` of
`cli.go`, whose page size is 10, over ten matching keys. -/
theorem scan_full_page_marker :
    (({ PageSize := 2 } : Iterate).execute plainStore
        ((freshContext exampleStore).PrepareCursor plainStore (ascii "a") true).1 true).1.out
      = [ascii "a1", ascii "x", [], ascii "a2", ascii "y", [], SCAN_MORE] ∧
    (({ PageSize := 2 } : Iterate).execute plainStore
        ((freshContext exampleStore).PrepareCursor plainStore (ascii "a") true).1
        true).1.cursor.isSome = true ∧
    (matching (ascii "a") tenStore).length = 10 ∧
    (scan plainStore (freshContext tenStore) (ascii "a")).1.out.getLast? = some SCAN_MORE ∧
    (scan plainStore (freshContext tenStore) (ascii "a")).1.cursor.isSome = true := by
  decide

/-- C8 (as amended): pagination is complete and in order.  Over an ascending store, with
`m` the entries matching the bound (all entries without a bound): as long as the pages
are full, the scan and each following `it` emit the next `n` matching entries in key
order, then the continuation marker, and leave the cursor open; the page that is not
full emits the remaining entries without a marker and closes the cursor; and the pages
concatenated, markers left out, are exactly `m`.  `iterate` of `cli.go` has the page
size 10 and emits key and value; `Iterate.execute` has any page size `n ≥ 1` and emits
key, value and an empty output (the keys alone when values are not included). -/
theorem scan_pagination (ji : Bytes → Bytes × Option Error) (se : Int → Bytes)
    (c₀ : Context (List (Bytes × Bytes)) MemCursor) (hs : Ascending c₀.store)
    (val : Bytes) :
    (∀ j : Nat, (j + 1) * 10 ≤ (matching val c₀.store).length →
      (scan (memStore ji se) c₀ val).2 = none ∧
      (itTimes (memStore ji se) j (scan (memStore ji se) c₀ val).1).out
        = c₀.out ++ pagesOut (fun k v => [k, v])
            (pageEntries 10 (j + 1) (matching val c₀.store)) ∧
      (itTimes (memStore ji se) j (scan (memStore ji se) c₀ val).1).cursor.isSome = true) ∧
    (∀ q : Nat, q * 10 ≤ (matching val c₀.store).length →
      (matching val c₀.store).length < (q + 1) * 10 →
      (itTimes (memStore ji se) q (scan (memStore ji se) c₀ val).1).out
        = c₀.out ++ pagesOut (fun k v => [k, v]) (pageEntries 10 q (matching val c₀.store))
            ++ ((matching val c₀.store).drop (q * 10)).flatMap (fun e => [e.1, e.2]) ∧
      (itTimes (memStore ji se) q (scan (memStore ji se) c₀ val).1).cursor.isSome = false) ∧
    (∀ (n : Nat) (incl : Bool) (j : Nat), 0 < n →
      (j + 1) * n ≤ (matching val c₀.store).length →
      (({ PageSize := (n : Int) } : Iterate).execute (memStore ji se)
          (c₀.PrepareCursor (memStore ji se) val incl).1 true).2 = none ∧
      (({ PageSize := (n : Int) } : Iterate).executeTimes (memStore ji se) j
          (({ PageSize := (n : Int) } : Iterate).execute (memStore ji se)
            (c₀.PrepareCursor (memStore ji se) val incl).1 true).1).out
        = c₀.out ++ pagesOut (emitEntry incl)
            (pageEntries n (j + 1) (matching val c₀.store)) ∧
      (({ PageSize := (n : Int) } : Iterate).executeTimes (memStore ji se) j
          (({ PageSize := (n : Int) } : Iterate).execute (memStore ji se)
            (c₀.PrepareCursor (memStore ji se) val incl).1 true).1).cursor.isSome = true) ∧
    (∀ (n : Nat) (incl : Bool) (q : Nat), 0 < n →
      q * n ≤ (matching val c₀.store).length →
      (matching val c₀.store).length < (q + 1) * n →
      (({ PageSize := (n : Int) } : Iterate).executeTimes (memStore ji se) q
          (({ PageSize := (n : Int) } : Iterate).execute (memStore ji se)
            (c₀.PrepareCursor (memStore ji se) val incl).1 true).1).out
        = c₀.out ++ pagesOut (emitEntry incl) (pageEntries n q (matching val c₀.store))
            ++ ((matching val c₀.store).drop (q * n)).flatMap
                (fun e => emitEntry incl e.1 e.2) ∧
      (({ PageSize := (n : Int) } : Iterate).executeTimes (memStore ji se) q
          (({ PageSize := (n : Int) } : Iterate).execute (memStore ji se)
            (c₀.PrepareCursor (memStore ji se) val incl).1 true).1).cursor.isSome = false) ∧
    (∀ n q : Nat,
      (pageEntries n q (matching val c₀.store)).flatten
        ++ (matching val c₀.store).drop (q * n) = matching val c₀.store) ∧
    (∀ n q : Nat, q * n ≤ (matching val c₀.store).length →
      ∀ pg ∈ pageEntries n q (matching val c₀.store), pg.length = n) := by
  refine ⟨?_, ?_, ?_, ?_, fun n q => pageEntries_flatten n q _,
    fun n q h => pageEntries_length n q _ h⟩
  · intro j hj
    obtain ⟨rest, hfull, _, herr⟩ :=
      scanPages_full ji se emitPair 10 (by decide) c₀ hs val true j hj
    rw [scan_mem, itTimes_eq_pageTimes, hfull]
    exact ⟨herr, rfl, rfl⟩
  · intro q hq hlt
    have h := scanPages_last ji se emitPair 10 (by decide) c₀ hs val true q hq hlt
    rw [scan_mem, itTimes_eq_pageTimes, h]
    exact ⟨rfl, rfl⟩
  · intro n incl j hn hj
    obtain ⟨rest, hfull, _, herr⟩ := scanPages_full ji se emitEntry n hn c₀ hs val incl j hj
    rw [executeTimes_eq_pageTimes, execute_eq_pageCall]
    simp only [Int.toNat_ofNat]
    rw [hfull]
    exact ⟨herr, rfl, rfl⟩
  · intro n incl q hn hq hlt
    have h := scanPages_last ji se emitEntry n hn c₀ hs val incl q hq hlt
    rw [executeTimes_eq_pageTimes, execute_eq_pageCall]
    simp only [Int.toNat_ofNat]
    rw [h]
    exact ⟨rfl, rfl⟩

/-- C8 at the example store with the bound `a` and the page size 1: the scan and one
`it` emit one entry and the marker each, the second `it` emits nothing and closes the
cursor. -/
theorem scan_pagination_witness :
    Ascending exampleStore ∧
    (({ PageSize := 1 } : Iterate).executeTimes plainStore 1
        (({ PageSize := 1 } : Iterate).execute plainStore
          ((freshContext exampleStore).PrepareCursor plainStore (ascii "a") true).1 true).1).out
      = [ascii "a1", ascii "x", [], SCAN_MORE, ascii "a2", ascii "y", [], SCAN_MORE] ∧
    (({ PageSize := 1 } : Iterate).executeTimes plainStore 2
        (({ PageSize := 1 } : Iterate).execute plainStore
          ((freshContext exampleStore).PrepareCursor plainStore (ascii "a") true).1
          true).1).cursor.isSome = false :=
  ⟨by decide,
   ((scan_pagination (fun data => (data, none)) (fun _ => []) (freshContext exampleStore)
      (by decide) (ascii "a")).2.2.1 1 true 1 (by decide) (by decide)).2.1,
   ((scan_pagination (fun data => (data, none)) (fun _ => []) (freshContext exampleStore)
      (by decide) (ascii "a")).2.2.2.1 1 true 2 (by decide) (by decide) (by decide)).2⟩

/-- C8 (as stated) fails for `Iterate.execute`, the scan with a page size: with values
included every pair is followed by an empty output, so the first page of size 1 over
`{a1:x, a2:y, b1:z}` is not `a1`, `x` and the marker. -/
theorem scan_page_separator :
    (({ PageSize := 1 } : Iterate).execute plainStore
        ((freshContext exampleStore).PrepareCursor plainStore (ascii "a") true).1 true).1.out
      = [ascii "a1", ascii "x", [], SCAN_MORE] ∧
    (({ PageSize := 1 } : Iterate).execute plainStore
        ((freshContext exampleStore).PrepareCursor plainStore (ascii "a") true).1 true).1.out
      ≠ [ascii "a1", ascii "x", SCAN_MORE] := by
  decide

/-! ## Errors of cursor reads -/

/-- C9 at the failing input: the store holds `a1:x`, the first read succeeds and the
second fails with the error number 5.  Under the bound `a` both `iterate` and
`Iterate.execute` close the cursor but return no error, because the `nil` key that
comes with the error is outside the bound; without a bound the same error is
returned. -/
theorem iterate_error_under_bound :
    (scan faultyStore (freshContext [(ascii "a1", ascii "x")]) (ascii "a")).2 = none ∧
    (scan faultyStore (freshContext [(ascii "a1", ascii "x")]) (ascii "a")).1.out
      = [ascii "a1", ascii "x"] ∧
    (scan faultyStore (freshContext [(ascii "a1", ascii "x")]) (ascii "a")).1.cursor.isSome
      = false ∧
    (({ PageSize := 5 } : Iterate).execute faultyStore
        ((freshContext [(ascii "a1", ascii "x")]).PrepareCursor faultyStore (ascii "a") true).1
        true).2 = none ∧
    (scan faultyStore (freshContext [(ascii "a1", ascii "x")]) []).2
      = some (Error.errno 5) ∧
    (scan faultyStore (freshContext [(ascii "a1", ascii "x")]) []).1.cursor.isSome = false ∧
    (({ PageSize := 5 } : Iterate).execute faultyStore
        ((freshContext [(ascii "a1", ascii "x")]).PrepareCursor faultyStore [] true).1
        true).2 = some (Error.errno 5) := by
  decide

/-! ## Shell loop: lemmas -/

theorem getCommand_error_zero (args : List Bytes) (h : (getCommand args).2 ≠ none) :
    (getCommand args).1 = Command.zero := by
  cases args with
  | nil => simp [getCommand]
  | cons fn rest =>
    cases hl : requiredArgs.lookup fn with
    | none => simp [getCommand, hl]
    | some m =>
      rw [getCommand_of_lookup fn rest m hl] at h ⊢
      split
      · rfl
      · rename_i hlt
        simp [hlt] at h

theorem getCommand_ok_of_it (args : List Bytes) (h : (getCommand args).1.fn = ascii "it") :
    (getCommand args).2 = none := by
  by_contra hne
  rw [getCommand_error_zero args hne] at h
  revert h
  decide

theorem get_cursor (d : Deps σ κ) (c : Context σ κ) (key : Bytes) (jsonPrint : Bool) :
    (get d c key jsonPrint).1.cursor = c.cursor := by
  unfold get Context.WithinRead
  simp only
  split
  · rfl
  · split
    · split <;> rfl
    · rfl

theorem exists_cursor (d : Deps σ κ) (c : Context σ κ) (key : Bytes) :
    («exists» d c key).1.cursor = c.cursor := by
  unfold «exists» Context.WithinRead
  simp only
  split <;> rfl

theorem del_cursor (d : Deps σ κ) (c : Context σ κ) (key : Bytes) :
    (del d c key).1.cursor = c.cursor := by
  unfold del Context.WithinWrite
  simp only
  cases h : (d.txnDel c.store key).2 <;> simp [Context.Output]

theorem put_cursor (d : Deps σ κ) (c : Context σ κ) (key val : Bytes) :
    (put d c key val).1.cursor = c.cursor := by
  unfold put Context.WithinWrite
  simp only
  cases h : (d.txnPut c.store key val).2 <;> simp [Context.Output]

theorem closeCursor_of_none (c : Context σ κ) (h : c.cursor = none) : c.CloseCursor = c := by
  cases c
  simp only [Context.CloseCursor] at h ⊢
  simp_all

/-- The context the handlers of a turn start from: prompted, and with the cursor
closed unless the verb is `it`. -/
theorem loopBody_start (c : Context σ κ) (fn : Bytes) (hit : fn ≠ ascii "it") :
    (if fn ≠ ascii "it" ∧ c.Prompt.cursor.isSome then c.Prompt.CloseCursor else c.Prompt)
      = c.Prompt.CloseCursor := by
  by_cases h : c.Prompt.cursor.isSome = true
  · simp [hit, h]
  · have hn : c.Prompt.cursor = none := by
      cases hc : c.Prompt.cursor with
      | none => rfl
      | some x => simp [hc] at h
    simp [h, closeCursor_of_none _ hn]

theorem output_cursor (c : Context σ κ) (data : Bytes) :
    (c.Output data).cursor = c.cursor := rfl

theorem report_cursor (d : Deps σ κ) (r : (Context σ κ × Option Error) × Bool) :
    (report d r).1.context.cursor = r.1.1.cursor := by
  unfold report
  split
  · rfl
  · split <;> rfl

/-- Every handler but `scan` and `it` leaves the cursor as it is. -/
theorem dispatch_cursor (d : Deps σ κ) (c : Context σ κ) (err : Option Error)
    (cmd : Command) (cerr : Option Error) (hscan : cmd.fn ≠ ascii "scan")
    (hit : cmd.fn ≠ ascii "it") :
    (dispatch d c err cmd cerr).1.1.cursor = c.cursor := by
  unfold dispatch
  cases cerr with
  | some e => rfl
  | none =>
    simp only [hscan, hit, if_false]
    split
    · exact get_cursor d c _ _
    · split
      · exact exists_cursor d c _
      · split
        · exact del_cursor d c _
        · split
          · exact put_cursor d c _ _
          · split <;> rfl

/-- A line `it` without an open cursor: nothing happens but the prompt. -/
theorem loopBody_it_closed (d : Deps σ κ) (s : Shell σ κ) (input : Bytes)
    (hit : (getCommand (parseInput input)).1.fn = ascii "it")
    (hc : s.context.cursor = none) :
    loopBody d s input = ({ context := s.context.Prompt, err := none }, false) := by
  have hok := getCommand_ok_of_it _ hit
  have hc₂ : s.context.Prompt.cursor = none := hc
  unfold loopBody dispatch
  simp only [hok, hit, ne_eq, not_true_eq_false, false_and, if_false,
    show ¬ (ascii "it" = ascii "get") by decide,
    show ¬ (ascii "it" = ascii "exists") by decide,
    show ¬ (ascii "it" = ascii "del") by decide,
    show ¬ (ascii "it" = ascii "put") by decide,
    show ¬ (ascii "it" = ascii "scan") by decide, if_true]
  simp [iterate, hc₂, report]

/-! ## Shell loop: claims -/

/-- C10 (as stated) fails for the line `scan`: it closes the open cursor but opens a new
one, and over a store of eleven keys the line `it` after it emits the eleventh entry. -/
theorem scan_line_then_it :
    openShell.context.cursor.isSome = true ∧
    (getCommand (parseInput (ascii "scan\n"))).1.fn = ascii "scan" ∧
    (loopBody plainStore openShell (ascii "scan\n")).1.context.cursor.isSome = true ∧
    (loopBody plainStore (loopBody plainStore openShell (ascii "scan\n")).1
        (ascii "it\n")).1.context.out
      = (loopBody plainStore openShell (ascii "scan\n")).1.context.out
          ++ [ascii "a:", ascii "x"] := by
  decide

/-! ## Tokenizer: quoted regions and whitespace bytes -/

/-- Inside a quoted region, bytes that are neither a quote nor a backslash are
appended to `arg` and nothing is emitted. -/
theorem foldl_quoted_plain (t : Bytes) (rs : List Bytes) (a : Bytes)
    (ht : ∀ b ∈ t, isQuote b = false ∧ b ≠ backslash) :
    t.foldl parseStep ⟨rs, a, State.STATE_QUOTE⟩ = ⟨rs, a ++ t, State.STATE_QUOTE⟩ := by
  induction t generalizing a with
  | nil => simp
  | cons x xs ih =>
    have hx := ht x (List.mem_cons_self _ _)
    have hb : (x == backslash) = false := by simpa using hx.2
    rw [List.foldl_cons]
    have hstep : parseStep ⟨rs, a, State.STATE_QUOTE⟩ x = ⟨rs, a ++ [x], State.STATE_QUOTE⟩ := by
      simp [parseStep, hb, hx.1]
    rw [hstep, ih (a ++ [x]) (fun b hb => ht b (List.mem_cons_of_mem _ hb))]
    simp

theorem isQuote_ne_backslash (q : Byte) (hq : isQuote q = true) : (q == backslash) = false := by
  simp only [isQuote, Bool.or_eq_true, beq_iff_eq] at hq
  rcases hq with (h | h) | h <;> subst h <;> decide

theorem parseInput_eq_nonSpaceRuns (s : Bytes) (hq : ∀ b ∈ s, isQuote b = false) :
    parseInput (s ++ [newline]) = nonSpaceRuns s := by
  have := (foldl_unquoted s hq).1 []
  simpa [parseInput, parseRun, Tokenizer.start] using this

/-- C16: when the tokenizer is in the state `NONE` after a line `s` (as it is when `s`
is empty, ends with the whitespace byte that ended a word, or ends with a closing
quote), a quote byte followed by bytes that are neither quotes nor backslashes adds
no token: the unterminated quoted text is never emitted.  `parseInput` is a total
function, so tokenizing never fails. -/
theorem parseInput_unterminated_quote (s : Bytes) (q : Byte) (t : Bytes)
    (hs : (parseRun s).state = State.STATE_NONE) (hq : isQuote q = true)
    (ht : ∀ b ∈ t, isQuote b = false ∧ b ≠ backslash) :
    parseInput (s ++ [q] ++ t) = parseInput s ∧
    (parseRun []).state = State.STATE_NONE ∧
    (∀ (s₀ : Bytes) (w : Byte), (parseRun s₀).state = State.STATE_WORD →
      isWhiteSpace w = true → (parseRun (s₀ ++ [w])).state = State.STATE_NONE) ∧
    (∀ (s₀ : Bytes) (c : Byte), (parseRun s₀).state = State.STATE_QUOTE →
      isQuote c = true → (parseRun (s₀ ++ [c])).state = State.STATE_NONE) := by
  refine ⟨?_, rfl, ?_, ?_⟩
  · rcases hrun : parseRun s with ⟨rs, a, st⟩
    simp only [hrun] at hs
    subst hs
    simp only [parseInput, List.append_assoc, parseRun_append, hrun, List.foldl_append,
      List.foldl_cons, List.foldl_nil]
    have hstep : parseStep ⟨rs, a, State.STATE_NONE⟩ q = ⟨rs, a, State.STATE_QUOTE⟩ := by
      simp [parseStep, hq]
    rw [hstep, foldl_quoted_plain t rs a ht]
  · intro s₀ w h hw
    rcases hrun : parseRun s₀ with ⟨rs, a, st⟩
    simp only [hrun] at h
    subst h
    simp [parseRun_append, hrun, parseStep, hw]
  · intro s₀ c h hc
    rcases hrun : parseRun s₀ with ⟨rs, a, st⟩
    simp only [hrun] at h
    subst h
    simp [parseRun_append, hrun, parseStep, hc, isQuote_ne_backslash c hc]

/-- C16 at the line `get ` followed by an opening double quote and `abc`. -/
theorem parseInput_unterminated_quote_witness :
    (parseRun (ascii "get ")).state = State.STATE_NONE ∧
    parseInput (ascii "get " ++ [0x22] ++ ascii "abc") = parseInput (ascii "get ") ∧
    parseInput (ascii "get ") = [ascii "get"] :=
  ⟨by decide,
   (parseInput_unterminated_quote (ascii "get ") 0x22 (ascii "abc") (by decide) (by decide)
      (by decide)).1,
   by decide⟩

/-- C17: a quoted region opened by any of the three quote bytes is closed by any of
them: for quote bytes `q₁`, `q₂` and bytes `t` that are neither quotes nor backslashes,
the line `q₁ t q₂` is the one token `t`. -/
theorem parseInput_any_quote_closes (q₁ q₂ : Byte) (t : Bytes)
    (h₁ : isQuote q₁ = true) (h₂ : isQuote q₂ = true)
    (ht : ∀ b ∈ t, isQuote b = false ∧ b ≠ backslash) :
    parseInput ([q₁] ++ t ++ [q₂]) = [t] := by
  simp only [parseInput, parseRun, Tokenizer.start, List.append_assoc, List.singleton_append,
    List.foldl_cons, List.foldl_append, List.foldl_nil]
  have hstep : parseStep ⟨[], [], State.STATE_NONE⟩ q₁ = ⟨[], [], State.STATE_QUOTE⟩ := by
    simp [parseStep, h₁]
  rw [hstep, foldl_quoted_plain t [] [] ht]
  simp [parseStep, h₂, isQuote_ne_backslash q₂ h₂]

/-- C17 at a region opened by a double quote and closed by a single quote. -/
theorem parseInput_any_quote_closes_witness :
    isQuote 0x22 = true ∧ isQuote 0x27 = true ∧
    parseInput ([0x22] ++ ascii "a b" ++ [0x27]) = [ascii "a b"] :=
  ⟨by decide, by decide,
   parseInput_any_quote_closes 0x22 0x27 (ascii "a b") (by decide) (by decide) (by decide)⟩

theorem nonSpaceRuns_word (w : Bytes) (hne : w ≠ [])
    (hw : ∀ b ∈ w, isWhiteSpace b = false) : nonSpaceRuns w = [w] := by
  have h := List.splitOnP_eq_single (fun b => isWhiteSpace b) w (by
    intro x hx
    simp [hw x hx])
  cases w with
  | nil => exact absurd rfl hne
  | cons x xs => simp [nonSpaceRuns, h]

/-- C20 (as amended): `isWhiteSpace` holds exactly for the bytes 0x09 to 0x0D, 0x20,
0x85 and 0xA0.  So a non-empty byte string with none of these bytes and no quote byte,
followed by a newline, is one token; and an unquoted word with the byte 0x85 or 0xA0
inside it is split at that byte into the part before and the part after. -/
theorem isWhiteSpace_bytes :
    (∀ b : Byte, isWhiteSpace b = true ↔
      ((0x09 ≤ b.val ∧ b.val ≤ 0x0D) ∨ b = 0x20 ∨ b = 0x85 ∨ b = 0xA0)) ∧
    (∀ w : Bytes, w ≠ [] → (∀ b ∈ w, isWhiteSpace b = false ∧ isQuote b = false) →
      parseInput (w ++ [newline]) = [w]) ∧
    (∀ (u v : Bytes) (b : Byte), (b = 0x85 ∨ b = 0xA0) → u ≠ [] → v ≠ [] →
      (∀ c ∈ u, isWhiteSpace c = false ∧ isQuote c = false) →
      (∀ c ∈ v, isWhiteSpace c = false ∧ isQuote c = false) →
      parseInput (u ++ [b] ++ v ++ [newline]) = [u, v]) := by
  refine ⟨by decide, ?_, ?_⟩
  · intro w hne hw
    rw [parseInput_eq_nonSpaceRuns w (fun b hb => (hw b hb).2)]
    exact nonSpaceRuns_word w hne (fun b hb => (hw b hb).1)
  · intro u v b hb hu hv hcu hcv
    have hbw : isWhiteSpace b = true := by
      rcases hb with h | h <;> subst h <;> decide
    have hbq : isQuote b = false := by
      rcases hb with h | h <;> subst h <;> decide
    have hq : ∀ c ∈ u ++ [b] ++ v, isQuote c = false := by
      intro c hc
      simp only [List.mem_append, List.mem_singleton] at hc
      rcases hc with (hc | hc) | hc
      · exact (hcu c hc).2
      · rw [hc]; exact hbq
      · exact (hcv c hc).2
    rw [parseInput_eq_nonSpaceRuns _ hq]
    have h1 := List.splitOnP_first (fun c => isWhiteSpace c) u (by
      intro x hx
      simp [(hcu x hx).1]) b hbw v
    have h2 := List.splitOnP_eq_single (fun c => isWhiteSpace c) v (by
      intro x hx
      simp [(hcv x hx).1])
    have h3 : u ++ [b] ++ v = u ++ b :: v := by simp
    rw [nonSpaceRuns, h3, h1, h2]
    cases u with
    | nil => exact absurd rfl hu
    | cons x xs =>
      cases v with
      | nil => exact absurd rfl hv
      | cons y ys => simp

/-- C20 at the word `ab` and at the bytes `a`, 0xA0, `b`. -/
theorem isWhiteSpace_bytes_witness :
    parseInput (ascii "ab" ++ [newline]) = [ascii "ab"] ∧
    parseInput (ascii "a" ++ [0xA0] ++ ascii "b" ++ [newline]) = [ascii "a", ascii "b"] :=
  ⟨isWhiteSpace_bytes.2.1 (ascii "ab") (by decide) (by decide),
   isWhiteSpace_bytes.2.2 (ascii "a") (ascii "b") 0xA0 (Or.inr rfl) (by decide) (by decide)
     (by decide) (by decide)⟩

/-- C20 (as stated) fails for the empty byte string, which has none of the whitespace
bytes and no quote byte: the line that is a newline alone has no token. -/
theorem parseInput_empty_word :
    (∀ b ∈ ([] : Bytes), isWhiteSpace b = false ∧ isQuote b = false) ∧
    parseInput ([] ++ [newline]) = [] ∧
    parseInput ([] ++ [newline]) ≠ [[]] := by
  decide

/-- C15: a command that `getCommand` returns without error has its verb in the table of
ten verbs, and at least as many non-empty fields among `key` and `val` as the verb's
minimum: a non-empty key for `exists`, `get` and `del`, a non-empty key and a non-empty
value for `put`. -/
theorem getCommand_invariant (args : List Bytes) (hok : (getCommand args).2 = none) :
    (getCommand args).1.fn ∈ verbTable ∧
    (∃ m, requiredArgs.lookup (getCommand args).1.fn = some m ∧
      m ≤ (if (getCommand args).1.key ≠ [] then 1 else 0)
        + (if (getCommand args).1.val ≠ [] then 1 else 0)) ∧
    ((getCommand args).1.fn ∈ [ascii "exists", ascii "get", ascii "del"] →
      (getCommand args).1.key ≠ []) ∧
    ((getCommand args).1.fn = ascii "put" →
      (getCommand args).1.key ≠ [] ∧ (getCommand args).1.val ≠ []) := by
  cases args with
  | nil => simp [getCommand] at hok
  | cons fn rest =>
    cases hl : requiredArgs.lookup fn with
    | none => simp [getCommand, hl] at hok
    | some m =>
      have hg := getCommand_of_lookup fn rest m hl
      have hnot : ¬ countedArgs m (fn :: rest) < m := by
        intro hlt
        rw [hg, if_pos hlt] at hok
        simp at hok
      rw [if_neg hnot] at hg
      have hle := requiredArgs_lookup_le fn m hl
      have hkey : keyCounts (fn :: rest) = true → (fn :: rest).getD 1 [] ≠ [] := by
        intro hk
        cases rest with
        | nil => simp [keyCounts] at hk
        | cons k ks =>
          cases k with
          | nil => simp [keyCounts] at hk
          | cons b bs => simp
      have hval : valCounts m (fn :: rest) = true → (fn :: rest).getD 2 [] ≠ [] := by
        intro hv
        simp only [valCounts, Bool.and_eq_true] at hv
        have ht := hv.2
        cases rest with
        | nil => simp [thirdPresent] at ht
        | cons k ks =>
          cases ks with
          | nil => simp [thirdPresent] at ht
          | cons v vs =>
            cases v with
            | nil => simp [thirdPresent] at ht
            | cons b bs => simp
      have hcount : m ≤ (if keyCounts (fn :: rest) = true then 1 else 0)
          + (if valCounts m (fn :: rest) = true then 1 else 0) := by
        simp only [countedArgs] at hnot
        omega
      have hK : (if keyCounts (fn :: rest) = true then 1 else 0)
          ≤ (if (getCommand (fn :: rest)).1.key ≠ [] then 1 else 0) := by
        rw [hg]
        by_cases hk : keyCounts (fn :: rest) = true
        · simp only [hk, if_true]
          rw [if_pos (hkey hk)]
        · simp [hk]
      have hV : (if valCounts m (fn :: rest) = true then 1 else 0)
          ≤ (if (getCommand (fn :: rest)).1.val ≠ [] then 1 else 0) := by
        rw [hg]
        by_cases hv : valCounts m (fn :: rest) = true
        · simp only [hv, if_true]
          rw [if_pos (hval hv)]
        · simp [hv]
      have hfields : m ≤ (if (getCommand (fn :: rest)).1.key ≠ [] then 1 else 0)
          + (if (getCommand (fn :: rest)).1.val ≠ [] then 1 else 0) := by
        omega
      have hfn : (getCommand (fn :: rest)).1.fn = fn := by rw [hg]
      have hmem : fn ∈ verbTable := by
        by_contra h
        rw [← lookup_none_iff, hl] at h
        cases h
      refine ⟨by rw [hfn]; exact hmem, ⟨m, by rw [hfn]; exact hl, hfields⟩, ?_, ?_⟩
      · intro h3
        rw [hfn] at h3
        have hm1 : m = 1 := by
          simp only [List.mem_cons, List.mem_nil_iff, or_false] at h3
          rcases h3 with e | e | e
          · rw [e, show requiredArgs.lookup (ascii "exists") = some 1 by decide] at hl
            exact (Option.some.inj hl).symm
          · rw [e, show requiredArgs.lookup (ascii "get") = some 1 by decide] at hl
            exact (Option.some.inj hl).symm
          · rw [e, show requiredArgs.lookup (ascii "del") = some 1 by decide] at hl
            exact (Option.some.inj hl).symm
        intro hk
        rw [hk] at hfields
        have hv0 : ¬ valCounts m (fn :: rest) = true := by
          simp [valCounts, hm1]
        have : (getCommand (fn :: rest)).1.val = [] := by
          rw [hg]
          simp [hv0]
        rw [this] at hfields
        simp at hfields
        omega
      · intro hp
        rw [hfn] at hp
        have hm2 : m = 2 := by
          subst hp
          have : requiredArgs.lookup (ascii "put") = some 2 := by decide
          rw [this] at hl
          exact (Option.some.inj hl).symm
        rw [hm2] at hfields
        constructor
        · intro hk
          rw [hk] at hfields
          simp only [ne_eq, not_true_eq_false, if_false] at hfields
          split at hfields <;> omega
        · intro hv
          rw [hv] at hfields
          simp only [ne_eq, not_true_eq_false, if_false] at hfields
          split at hfields <;> omega

/-- C15 at the tokens of `put k v`. -/
theorem getCommand_invariant_witness :
    (getCommand [ascii "put", ascii "k", ascii "v"]).2 = none ∧
    (getCommand [ascii "put", ascii "k", ascii "v"]).1.fn ∈ verbTable ∧
    (getCommand [ascii "put", ascii "k", ascii "v"]).1.key ≠ [] ∧
    (getCommand [ascii "put", ascii "k", ascii "v"]).1.val ≠ [] :=
  ⟨by decide,
   (getCommand_invariant [ascii "put", ascii "k", ascii "v"] (by decide)).1,
   ((getCommand_invariant [ascii "put", ascii "k", ascii "v"] (by decide)).2.2.2
      (by decide)).1,
   ((getCommand_invariant [ascii "put", ascii "k", ascii "v"] (by decide)).2.2.2
      (by decide)).2⟩

/-! ## Handlers: lemmas -/

theorem lookup_memInsert (key val : Bytes) (es : List (Bytes × Bytes)) :
    (memInsert key val es).lookup key = some val := by
  induction es with
  | nil => simp [memInsert, List.lookup]
  | cons e es ih =>
    obtain ⟨a, b⟩ := e
    unfold memInsert
    by_cases h1 : a = key
    · simp [h1, List.lookup]
    · by_cases h2 : keyLt key a = true
      · simp [h1, h2, List.lookup]
      · have h3 : (key == a) = false := by
          simpa using fun h : key = a => h1 h.symm
        rw [if_neg h1, if_neg h2, List.lookup_cons, h3]
        exact ih

theorem lookup_filter_ne (key : Bytes) (es : List (Bytes × Bytes)) :
    (es.filter (fun e => decide (e.1 ≠ key))).lookup key = none := by
  induction es with
  | nil => rfl
  | cons e es ih =>
    obtain ⟨a, b⟩ := e
    by_cases h1 : a = key
    · rw [List.filter_cons_of_neg (by simp [h1])]
      exact ih
    · have h3 : (key == a) = false := by
        simpa using fun h : key = a => h1 h.symm
      rw [List.filter_cons_of_pos (by simp [h1]), List.lookup_cons, h3]
      exact ih

/-- The handler `get` when the lookup fails. -/
theorem get_error (d : Deps σ κ) (c : Context σ κ) (key : Bytes) (jsonPrint : Bool)
    (e : Error) (h : (d.txnGet c.store key).2 = some e) :
    get d c key jsonPrint = (c, some e) := by
  unfold get Context.WithinRead
  simp only
  split
  · rename_i h₂
    rw [h₂] at h
    simp only [Option.some.injEq] at h
    rw [h]
  · rename_i h₂
    rw [h₂] at h
    cases h

/-- The handler `exists` in closed form. -/
theorem exists_eq (d : Deps σ κ) (c : Context σ κ) (key : Bytes) :
    «exists» d c key =
      (c.Output (if (d.txnGet c.store key).2 = none then ascii "true" else ascii "false"),
        none) := by
  unfold «exists» Context.WithinRead
  simp only
  split
  · rename_i h
    simp [h]
  · rename_i h
    simp [h]

/-- The handler `get` without JSON formatting, in closed form. -/
theorem get_plain_eq (d : Deps σ κ) (c : Context σ κ) (key : Bytes) :
    get d c key false =
      match (d.txnGet c.store key).2 with
      | some e => (c, some e)
      | none => (c.Output (d.txnGet c.store key).1, none) := by
  unfold get Context.WithinRead
  simp only
  split
  · rename_i h
    simp [h]
  · rename_i h
    simp [h]

/-- The handler `del` in closed form. -/
theorem del_eq (d : Deps σ κ) (c : Context σ κ) (key : Bytes) :
    del d c key =
      match (d.txnDel c.store key).2 with
      | some e => (c, some e)
      | none => ({ c with store := (d.txnDel c.store key).1, out := c.out ++ [OK] }, none) := by
  unfold del Context.WithinWrite
  simp only
  cases h : (d.txnDel c.store key).2 <;> simp [Context.Output]

/-- The handler `put` in closed form. -/
theorem put_eq (d : Deps σ κ) (c : Context σ κ) (key val : Bytes) :
    put d c key val =
      match (d.txnPut c.store key val).2 with
      | some e => (c, some e)
      | none =>
        ({ c with store := (d.txnPut c.store key val).1, out := c.out ++ [OK] }, none) := by
  unfold put Context.WithinWrite
  simp only
  cases h : (d.txnPut c.store key val).2 <;> simp [Context.Output]

theorem put_mem (ji : Bytes → Bytes × Option Error) (se : Int → Bytes)
    (c : Context (List (Bytes × Bytes)) MemCursor) (key val : Bytes) :
    put (memStore ji se) c key val =
      ({ c with store := memInsert key val c.store, out := c.out ++ [OK] }, none) := by
  rw [put_eq]
  rfl

/-! ## Handlers: claims -/

/-- C12: over the store in memory, whose write-scoped execution commits on success,
`put k v` followed by `get k` emits `OK` and then `v` with no failure; and after
`put k v` and `del k` (which emits `OK` too), `get k` fails with the store's `NotFound`
and emits nothing. -/
theorem put_get_del (ji : Bytes → Bytes × Option Error) (se : Int → Bytes)
    (c : Context (List (Bytes × Bytes)) MemCursor) (k v : Bytes) :
    (put (memStore ji se) c k v).2 = none ∧
    (put (memStore ji se) c k v).1.out = c.out ++ [OK] ∧
    (get (memStore ji se) (put (memStore ji se) c k v).1 k false).2 = none ∧
    (get (memStore ji se) (put (memStore ji se) c k v).1 k false).1.out
      = c.out ++ [OK, v] ∧
    (del (memStore ji se) (put (memStore ji se) c k v).1 k).2 = none ∧
    (del (memStore ji se) (put (memStore ji se) c k v).1 k).1.out = c.out ++ [OK, OK] ∧
    (∀ jsonPrint : Bool,
      (get (memStore ji se) (del (memStore ji se) (put (memStore ji se) c k v).1 k).1 k
          jsonPrint).2 = some NotFound ∧
      (get (memStore ji se) (del (memStore ji se) (put (memStore ji se) c k v).1 k).1 k
          jsonPrint).1.out = c.out ++ [OK, OK]) := by
  have hput := put_mem ji se c k v
  have hl := lookup_memInsert k v c.store
  have hget : get (memStore ji se) (put (memStore ji se) c k v).1 k false
      = ({ c with store := memInsert k v c.store, out := c.out ++ [OK] ++ [v] }, none) := by
    rw [get_plain_eq, hput]
    simp [memStore, memGet, hl, Context.Output]
  have hdel : del (memStore ji se) (put (memStore ji se) c k v).1 k
      = ({ c with store := (memInsert k v c.store).filter (fun e => decide (e.1 ≠ k)),
                  out := c.out ++ [OK] ++ [OK] }, none) := by
    rw [del_eq, hput]
    simp [memStore, memDel, hl]
  refine ⟨by rw [hput], by rw [hput], by rw [hget], by rw [hget]; simp, by rw [hdel],
    by rw [hdel]; simp, ?_⟩
  intro jsonPrint
  rw [hdel]
  have hnone := lookup_filter_ne k (memInsert k v c.store)
  have hmiss : ((memStore ji se).txnGet
      ((memInsert k v c.store).filter (fun e => decide (e.1 ≠ k))) k).2 = some NotFound := by
    show (memGet _ k).2 = some NotFound
    unfold memGet
    rw [hnone]
  rw [get_error (memStore ji se) _ k jsonPrint NotFound hmiss]
  simp

/-- C13: whatever the store lookup returns, `exists` emits exactly one line, `true` when
the lookup returned no error and `false` otherwise, and returns success.  Over the
store in memory `exists k` therefore emits `false` while `k` is absent and `true` after
`put k v`, with no error in either case. -/
theorem exists_true_false (d : Deps σ κ) (c : Context σ κ) (key : Bytes) :
    («exists» d c key).2 = none ∧
    («exists» d c key).1.out
      = c.out ++ [if (d.txnGet c.store key).2 = none then ascii "true" else ascii "false"] ∧
    («exists» d c key).1.store = c.store ∧
    (∀ (ji : Bytes → Bytes × Option Error) (se : Int → Bytes)
        (c₀ : Context (List (Bytes × Bytes)) MemCursor) (k v : Bytes),
      (c₀.store.lookup k = none →
        «exists» (memStore ji se) c₀ k = (c₀.Output (ascii "false"), none)) ∧
      «exists» (memStore ji se) (put (memStore ji se) c₀ k v).1 k
        = ((put (memStore ji se) c₀ k v).1.Output (ascii "true"), none)) := by
  refine ⟨by rw [exists_eq], by rw [exists_eq]; rfl, by rw [exists_eq]; rfl, ?_⟩
  intro ji se c₀ k v
  constructor
  · intro habs
    rw [exists_eq]
    simp [memStore, memGet, habs]
  · rw [exists_eq, put_mem]
    simp [memStore, memGet, lookup_memInsert]

/-- C13 at the empty store and the key `k`: `false` before the put, `true` after it. -/
theorem exists_true_false_witness :
    («exists» plainStore (freshContext []) (ascii "k")).1.out = [ascii "false"] ∧
    («exists» plainStore (freshContext []) (ascii "k")).2 = none ∧
    («exists» plainStore (put plainStore (freshContext []) (ascii "k") (ascii "v")).1
        (ascii "k")).1.out = [OK, ascii "true"] ∧
    («exists» plainStore (put plainStore (freshContext []) (ascii "k") (ascii "v")).1
        (ascii "k")).2 = none :=
  ⟨congrArg (fun r => r.1.out)
      (((exists_true_false plainStore (freshContext []) (ascii "k")).2.2.2
        (fun data => (data, none)) (fun _ => []) (freshContext []) (ascii "k") (ascii "v")).1
        rfl),
   by decide, by decide, by decide⟩

/-- C14: `del` and `put` emit `OK` exactly when their unit of work, the one store call
`Del` or `Put`, succeeded; the store then holds what the call left.  When the call
fails, so that the write-scoped execution fails, they emit nothing, leave the store as
it was and return that failure unchanged. -/
theorem del_put_ok (d : Deps σ κ) (c : Context σ κ) (key val : Bytes) :
    ((d.txnDel c.store key).2 = none →
      del d c key
        = ({ c with store := (d.txnDel c.store key).1, out := c.out ++ [OK] }, none)) ∧
    (∀ e, (d.txnDel c.store key).2 = some e → del d c key = (c, some e)) ∧
    ((del d c key).1.out = c.out ++ [OK] ↔ (d.txnDel c.store key).2 = none) ∧
    ((d.txnPut c.store key val).2 = none →
      put d c key val
        = ({ c with store := (d.txnPut c.store key val).1, out := c.out ++ [OK] }, none)) ∧
    (∀ e, (d.txnPut c.store key val).2 = some e → put d c key val = (c, some e)) ∧
    ((put d c key val).1.out = c.out ++ [OK] ↔ (d.txnPut c.store key val).2 = none) := by
  refine ⟨?_, ?_, ?_, ?_, ?_, ?_⟩
  · intro h
    rw [del_eq, h]
  · intro e h
    rw [del_eq, h]
  · rw [del_eq]
    cases h : (d.txnDel c.store key).2 <;> simp
  · intro h
    rw [put_eq, h]
  · intro e h
    rw [put_eq, h]
  · rw [put_eq]
    cases h : (d.txnPut c.store key val).2 <;> simp

/-- C14 over the store in memory: `del` of an absent key fails with `NotFound` and
emits nothing, `put` emits `OK`. -/
theorem del_put_ok_witness :
    del plainStore (freshContext []) (ascii "k") = (freshContext [], some NotFound) ∧
    (put plainStore (freshContext []) (ascii "k") (ascii "v")).1.out = [OK] :=
  ⟨(del_put_ok plainStore (freshContext []) (ascii "k") (ascii "v")).2.1 NotFound rfl,
   congrArg (fun r => r.1.out)
     ((del_put_ok plainStore (freshContext []) (ascii "k") (ascii "v")).2.2.2.1 rfl)⟩

/-! ## Page loop: the reads of a page -/

theorem stops_iff (p : Option Bytes) (r : Bytes × Bytes × Option Error) :
    stops p r = false ↔
      ¬ (r.2.2 = some NotFound ∨ (p.isSome = true ∧ ¬ (p.getD []) <+: r.1)) ∧ r.2.2 = none := by
  simp only [stops, decide_eq_false_iff_not, not_or]
  constructor
  · rintro ⟨h1, h2⟩
    have h1' : r.2.2 = none := by simpa using h1
    exact ⟨⟨by rw [h1']; simp, h2⟩, h1'⟩
  · rintro ⟨⟨_, h2⟩, h3⟩
    exact ⟨by simp [h3], h2⟩

/-- One turn of the page loop whose read ends the page: the cursor is closed and the
loop returns, whatever number of turns was left. -/
theorem pageLoop_stop (d : Deps σ κ) (emit : Bool → Bytes → Bytes → List Bytes) (n : Nat)
    (cursor : Cursor κ) (seek : Bool) (context : Context σ κ)
    (hs : stops cursor.Prefix
      (if seek then d.cursorGet cursor.handle (cursor.Prefix.getD []) CursorOp.SET_RANGE
        else d.cursorGet cursor.handle [] CursorOp.NEXT).1 = true) :
    pageLoop d emit (n + 1) cursor seek context = pageLoop d emit 1 cursor seek context := by
  have h : ¬ stops cursor.Prefix
      (if seek then d.cursorGet cursor.handle (cursor.Prefix.getD []) CursorOp.SET_RANGE
        else d.cursorGet cursor.handle [] CursorOp.NEXT).1 = false := by simp [hs]
  rw [stops_iff] at h
  unfold pageLoop
  simp only
  by_cases h1 : ((if seek then d.cursorGet cursor.handle (cursor.Prefix.getD []) CursorOp.SET_RANGE
      else d.cursorGet cursor.handle [] CursorOp.NEXT).1.2.2 = some NotFound ∨
      (cursor.Prefix.isSome = true ∧ ¬ (cursor.Prefix.getD []) <+:
        (if seek then d.cursorGet cursor.handle (cursor.Prefix.getD []) CursorOp.SET_RANGE
          else d.cursorGet cursor.handle [] CursorOp.NEXT).1.1))
  · rw [if_pos h1, if_pos h1]
  · rw [if_neg h1, if_neg h1]
    have h2 : (if seek then d.cursorGet cursor.handle (cursor.Prefix.getD []) CursorOp.SET_RANGE
        else d.cursorGet cursor.handle [] CursorOp.NEXT).1.2.2 ≠ none := by
      intro h3
      exact h ⟨h1, h3⟩
    rw [if_pos h2, if_pos h2]

/-- One turn of the page loop whose read does not end the page: the entry is emitted
and the loop goes on with the turns left. -/
theorem pageLoop_go (d : Deps σ κ) (emit : Bool → Bytes → Bytes → List Bytes) (n : Nat)
    (cursor : Cursor κ) (seek : Bool) (context : Context σ κ)
    (hs : stops cursor.Prefix
      (if seek then d.cursorGet cursor.handle (cursor.Prefix.getD []) CursorOp.SET_RANGE
        else d.cursorGet cursor.handle [] CursorOp.NEXT).1 = false) :
    pageLoop d emit (n + 1) cursor seek context =
      pageLoop d emit n
        { cursor with handle :=
            (if seek then d.cursorGet cursor.handle (cursor.Prefix.getD []) CursorOp.SET_RANGE
              else d.cursorGet cursor.handle [] CursorOp.NEXT).2 }
        false
        { context with
            cursor := some { cursor with handle :=
              (if seek then d.cursorGet cursor.handle (cursor.Prefix.getD []) CursorOp.SET_RANGE
                else d.cursorGet cursor.handle [] CursorOp.NEXT).2 },
            out := context.out ++ emit cursor.IncludeValues
              (if seek then d.cursorGet cursor.handle (cursor.Prefix.getD []) CursorOp.SET_RANGE
                else d.cursorGet cursor.handle [] CursorOp.NEXT).1.1
              (if seek then d.cursorGet cursor.handle (cursor.Prefix.getD []) CursorOp.SET_RANGE
                else d.cursorGet cursor.handle [] CursorOp.NEXT).1.2.1 } := by
  rw [stops_iff] at hs
  conv_lhs => unfold pageLoop
  simp only
  rw [if_neg hs.1, if_neg (by simp [hs.2])]

theorem goodReads_succ_stop (d : Deps σ κ) (n : Nat) (cursor : Cursor κ) (seek : Bool)
    (hs : stops cursor.Prefix (turnRead d cursor seek).1 = true) :
    goodReads d (n + 1) cursor seek = [] := by
  simp only [goodReads, readsOf, List.takeWhile_cons]
  have : stops cursor.Prefix
      (if seek = true then d.cursorGet cursor.handle (cursor.Prefix.getD []) CursorOp.SET_RANGE
        else d.cursorGet cursor.handle [] CursorOp.NEXT).1 = true := hs
  simp [this]

theorem goodReads_succ_go (d : Deps σ κ) (n : Nat) (cursor : Cursor κ) (seek : Bool)
    (hs : stops cursor.Prefix (turnRead d cursor seek).1 = false) :
    goodReads d (n + 1) cursor seek =
      (turnRead d cursor seek).1 ::
        goodReads d n { cursor with handle := (turnRead d cursor seek).2 } false := by
  simp only [goodReads, readsOf, List.takeWhile_cons]
  have : stops cursor.Prefix
      (if seek = true then d.cursorGet cursor.handle (cursor.Prefix.getD []) CursorOp.SET_RANGE
        else d.cursorGet cursor.handle [] CursorOp.NEXT).1 = false := hs
  simp only [this, Bool.not_false, if_true]
  rfl

/-- What a call of the page loop on a context with an open cursor does, in terms of the
reads of the page: it emits the entries read before the read that ends the page; the
marker follows, and the cursor stays open, exactly when no read among the `n` ends the
page; and otherwise the call is the loop cut right after the read that ends the page. -/
theorem pageLoop_trace (d : Deps σ κ) (emit : Bool → Bytes → Bytes → List Bytes) (n : Nat)
    (cursor : Cursor κ) (seek : Bool) (context : Context σ κ)
    (hopen : context.cursor.isSome = true) :
    (pageLoop d emit n cursor seek context).1.out
      = context.out
        ++ (goodReads d n cursor seek).flatMap (fun r => emit cursor.IncludeValues r.1 r.2.1)
        ++ (if (goodReads d n cursor seek).length = n then [SCAN_MORE] else []) ∧
    (pageLoop d emit n cursor seek context).1.cursor.isSome
      = decide ((goodReads d n cursor seek).length = n) ∧
    ((goodReads d n cursor seek).length = n →
      (pageLoop d emit n cursor seek context).2 = none) ∧
    ((goodReads d n cursor seek).length < n →
      pageLoop d emit n cursor seek context
        = pageLoop d emit ((goodReads d n cursor seek).length + 1) cursor seek context) ∧
    (pageLoop d emit n cursor seek context).1.store = context.store := by
  induction n generalizing cursor seek context with
  | zero =>
    simp [pageLoop, goodReads, readsOf, Context.Output, hopen]
  | succ n ih =>
    by_cases hs : stops cursor.Prefix (turnRead d cursor seek).1 = true
    · have hg := goodReads_succ_stop d n cursor seek hs
      have h1 := pageLoop_stop d emit n cursor seek context hs
      have hone : pageLoop d emit 1 cursor seek context
          = ({ context with cursor := none },
              (pageLoop d emit 1 cursor seek context).2) := by
        have hns : ¬ stops cursor.Prefix (turnRead d cursor seek).1 = false := by simp [hs]
        rw [stops_iff] at hns
        unfold pageLoop
        simp only
        by_cases hc : ((if seek = true
            then d.cursorGet cursor.handle (cursor.Prefix.getD []) CursorOp.SET_RANGE
            else d.cursorGet cursor.handle [] CursorOp.NEXT).1.2.2 = some NotFound ∨
            (cursor.Prefix.isSome = true ∧ ¬ (cursor.Prefix.getD []) <+:
              (if seek = true
                then d.cursorGet cursor.handle (cursor.Prefix.getD []) CursorOp.SET_RANGE
                else d.cursorGet cursor.handle [] CursorOp.NEXT).1.1))
        · rw [if_pos hc]
        · rw [if_neg hc]
          have h2 : (if seek = true
              then d.cursorGet cursor.handle (cursor.Prefix.getD []) CursorOp.SET_RANGE
              else d.cursorGet cursor.handle [] CursorOp.NEXT).1.2.2 ≠ none := by
            intro h3
            exact hns ⟨hc, h3⟩
          rw [if_pos h2]
      rw [hg, h1]
      refine ⟨?_, ?_, ?_, ?_, ?_⟩
      · rw [hone]
        simp
      · rw [hone]
        simp
      · intro h
        simp at h
      · intro _
        rfl
      · rw [hone]
    · have hs' : stops cursor.Prefix (turnRead d cursor seek).1 = false := by simpa using hs
      have hg := goodReads_succ_go d n cursor seek hs'
      have h1 := pageLoop_go d emit n cursor seek context hs'
      have h1' : ∀ m, pageLoop d emit (m + 1) cursor seek context = _ :=
        fun m => pageLoop_go d emit m cursor seek context hs'
      obtain ⟨i1, i2, i3, i4, i5⟩ := ih { cursor with handle := (turnRead d cursor seek).2 }
        false
        { context with
            cursor := some { cursor with handle := (turnRead d cursor seek).2 },
            out := context.out ++ emit cursor.IncludeValues (turnRead d cursor seek).1.1
              (turnRead d cursor seek).1.2.1 } rfl
      have h1t : pageLoop d emit (n + 1) cursor seek context =
          pageLoop d emit n { cursor with handle := (turnRead d cursor seek).2 } false
            { context with
                cursor := some { cursor with handle := (turnRead d cursor seek).2 },
                out := context.out ++ emit cursor.IncludeValues (turnRead d cursor seek).1.1
                  (turnRead d cursor seek).1.2.1 } := h1
      rw [hg, h1t]
      simp only [List.length_cons, Nat.add_right_cancel_iff, List.flatMap_cons]
      refine ⟨?_, i2, i3, ?_, i5⟩
      · rw [i1]
        simp only [List.append_assoc]
      · intro hlt
        have hlt' : (goodReads d n { cursor with handle := (turnRead d cursor seek).2 }
            false).length < n := by omega
        rw [i4 hlt']
        exact (h1' _).symm

theorem readsOf_length (d : Deps σ κ) (n : Nat) (h : κ) (bound : Bytes) (seek : Bool) :
    (readsOf d n h bound seek).length = n := by
  induction n generalizing h seek with
  | zero => rfl
  | succ n ih => simp [readsOf, ih]

theorem goodReads_length_le (d : Deps σ κ) (n : Nat) (cursor : Cursor κ) (seek : Bool) :
    (goodReads d n cursor seek).length ≤ n := by
  have h := List.Sublist.length_le (List.takeWhile_sublist (fun r => !stops cursor.Prefix r)
    (l := readsOf d n cursor.handle (cursor.Prefix.getD []) seek))
  rw [readsOf_length] at h
  exact h

theorem takeWhile_stop {α : Type} (p : α → Bool) (l : List α)
    (h : (l.takeWhile p).length < l.length) :
    ∃ r, l[(l.takeWhile p).length]? = some r ∧ p r = false := by
  induction l with
  | nil => simp at h
  | cons x xs ih =>
    by_cases hx : p x = true
    · simp only [List.takeWhile_cons, hx, if_true, List.length_cons] at h ⊢
      obtain ⟨r, h1, h2⟩ := ih (by omega)
      exact ⟨r, by simpa using h1, h2⟩
    · have hx' : p x = false := by simpa using hx
      exact ⟨x, by simp [List.takeWhile_cons, hx'], hx'⟩

/-- The read that ends a page that is not full. -/
theorem pageReads_stop (d : Deps σ κ) (n : Nat) (cursor : Cursor κ) (first : Bool)
    (h : (pageReads d n cursor first).length < n) :
    ∃ r, (readsOf d n cursor.handle (cursor.Prefix.getD [])
        (first && cursor.Prefix.isSome))[(pageReads d n cursor first).length]? = some r ∧
      stops cursor.Prefix r = true := by
  have hlen := readsOf_length d n cursor.handle (cursor.Prefix.getD [])
    (first && cursor.Prefix.isSome)
  obtain ⟨r, h1, h2⟩ := takeWhile_stop (fun r => !stops cursor.Prefix r)
    (readsOf d n cursor.handle (cursor.Prefix.getD []) (first && cursor.Prefix.isSome))
    (by rw [hlen]; exact h)
  exact ⟨r, h1, by simpa using h2⟩

/-- The cursor and the marker after a call of the page loop on an open cursor. -/
theorem pageLoop_open_iff (d : Deps σ κ) (emit : Bool → Bytes → Bytes → List Bytes) (n : Nat)
    (cursor : Cursor κ) (seek : Bool) (context : Context σ κ)
    (hopen : context.cursor.isSome = true) :
    ((pageLoop d emit n cursor seek context).1.cursor.isSome = true ↔
      (pageLoop d emit n cursor seek context).1.out
        = context.out
          ++ (goodReads d n cursor seek).flatMap (fun r => emit cursor.IncludeValues r.1 r.2.1)
          ++ [SCAN_MORE]) ∧
    ((pageLoop d emit n cursor seek context).1.cursor.isSome = true →
      (goodReads d n cursor seek).length = n ∧
      (pageLoop d emit n cursor seek context).2 = none) ∧
    ((pageLoop d emit n cursor seek context).1.cursor.isSome = false →
      (pageLoop d emit n cursor seek context).1.out
        = context.out
          ++ (goodReads d n cursor seek).flatMap (fun r => emit cursor.IncludeValues r.1 r.2.1) ∧
      (goodReads d n cursor seek).length < n ∧
      pageLoop d emit n cursor seek context
        = pageLoop d emit ((goodReads d n cursor seek).length + 1) cursor seek context) := by
  obtain ⟨t1, t2, t3, t4, _⟩ := pageLoop_trace d emit n cursor seek context hopen
  have hle := goodReads_length_le d n cursor seek
  by_cases hlen : (goodReads d n cursor seek).length = n
  · have hsome : (pageLoop d emit n cursor seek context).1.cursor.isSome = true := by
      rw [t2]
      simp [hlen]
    refine ⟨⟨fun _ => ?_, fun _ => hsome⟩, fun _ => ⟨hlen, t3 hlen⟩, fun h => ?_⟩
    · rw [t1, if_pos hlen]
    · rw [hsome] at h
      cases h
  · have hnone : (pageLoop d emit n cursor seek context).1.cursor.isSome = false := by
      rw [t2]
      simp [hlen]
    have hlt : (goodReads d n cursor seek).length < n := by omega
    refine ⟨⟨fun h => ?_, fun h => ?_⟩, fun h => ?_, fun _ => ⟨?_, hlt, t4 hlt⟩⟩
    · rw [hnone] at h
      cases h
    · rw [t1, if_neg hlen] at h
      have := congrArg List.length h
      simp at this
    · rw [hnone] at h
      cases h
    · rw [t1, if_neg hlen]
      simp

/-! ## Cursor and marker: claims -/

/-- C19: after `iterate` (and `Iterate.execute`, whatever its page size) returns on a
context with an open cursor, the cursor is still open iff the continuation marker was
emitted as the last output, after the entries read.  When the call returns without the
marker, the cursor has been closed, only the entries read before the read that ended
the page (end-of-range, key outside the bound or store error) have been emitted, not
the entry of that read, and the call is the loop cut right after that read: no further
turn, hence no further read, follows the close. -/
theorem iterate_cursor_marker (d : Deps σ κ) (context : Context σ κ) (cursor : Cursor κ)
    (first : Bool) (hc : context.cursor = some cursor) :
    ((iterate d context first).1.cursor.isSome = true ↔
      (iterate d context first).1.out
        = context.out ++ (pageReads d 10 cursor first).flatMap (fun r => [r.1, r.2.1])
          ++ [SCAN_MORE]) ∧
    ((iterate d context first).1.cursor.isSome = true →
      (pageReads d 10 cursor first).length = 10 ∧ (iterate d context first).2 = none) ∧
    ((iterate d context first).1.cursor.isSome = false →
      (iterate d context first).1.out
        = context.out ++ (pageReads d 10 cursor first).flatMap (fun r => [r.1, r.2.1]) ∧
      (pageReads d 10 cursor first).length < 10 ∧
      (∃ r, (readsOf d 10 cursor.handle (cursor.Prefix.getD [])
          (first && cursor.Prefix.isSome))[(pageReads d 10 cursor first).length]? = some r ∧
        stops cursor.Prefix r = true) ∧
      iterate d context first
        = iterateLoop d ((pageReads d 10 cursor first).length + 1) cursor first context) ∧
    (∀ n : Nat,
      ((({ PageSize := (n : Int) } : Iterate).execute d context first).1.cursor.isSome = true ↔
        (({ PageSize := (n : Int) } : Iterate).execute d context first).1.out
          = context.out
            ++ (pageReads d n cursor first).flatMap
                (fun r => emitEntry cursor.IncludeValues r.1 r.2.1)
            ++ [SCAN_MORE]) ∧
      ((({ PageSize := (n : Int) } : Iterate).execute d context first).1.cursor.isSome = false →
        (({ PageSize := (n : Int) } : Iterate).execute d context first).1.out
          = context.out
            ++ (pageReads d n cursor first).flatMap
                (fun r => emitEntry cursor.IncludeValues r.1 r.2.1) ∧
        (pageReads d n cursor first).length < n ∧
        (∃ r, (readsOf d n cursor.handle (cursor.Prefix.getD [])
            (first && cursor.Prefix.isSome))[(pageReads d n cursor first).length]? = some r ∧
          stops cursor.Prefix r = true) ∧
        ({ PageSize := (n : Int) } : Iterate).execute d context first
          = Iterate.executeLoop d ((pageReads d n cursor first).length + 1) cursor first
              context)) := by
  have hopen : context.cursor.isSome = true := by rw [hc]; rfl
  have hit : iterate d context first
      = pageLoop d emitPair 10 cursor (first && cursor.Prefix.isSome) context := by
    rw [iterate_eq_pageCall]
    simp only [pageCall, hc]
  have hex : ∀ n : Nat, ({ PageSize := (n : Int) } : Iterate).execute d context first
      = pageLoop d emitEntry n cursor (first && cursor.Prefix.isSome) context := by
    intro n
    rw [execute_eq_pageCall]
    simp only [pageCall, hc, Int.toNat_ofNat]
  obtain ⟨a1, a2, a3⟩ :=
    pageLoop_open_iff d emitPair 10 cursor (first && cursor.Prefix.isSome) context hopen
  refine ⟨?_, ?_, ?_, ?_⟩
  · rw [hit]
    exact a1
  · rw [hit]
    exact a2
  · rw [hit, iterateLoop_eq_pageLoop]
    intro h
    obtain ⟨c1, c2, c3⟩ := a3 h
    exact ⟨c1, c2, pageReads_stop d 10 cursor first c2, c3⟩
  · intro n
    obtain ⟨b1, _, b3⟩ :=
      pageLoop_open_iff d emitEntry n cursor (first && cursor.Prefix.isSome) context hopen
    rw [hex n, executeLoop_eq_pageLoop]
    refine ⟨b1, fun h => ?_⟩
    obtain ⟨c1, c2, c3⟩ := b3 h
    exact ⟨c1, c2, pageReads_stop d n cursor first c2, c3⟩

/-- C19 over the example store: the scan with the bound `a` closes the cursor and emits
no marker; the scan of the store of eleven keys leaves the cursor open and ends with
the marker. -/
theorem iterate_cursor_marker_witness :
    ((freshContext exampleStore).PrepareCursor plainStore (ascii "a") true).1.cursor
      = some { handle := { all := exampleStore, rest := exampleStore },
               Prefix := some (ascii "a"), IncludeValues := true } ∧
    ((iterate plainStore ((freshContext exampleStore).PrepareCursor plainStore (ascii "a")
        true).1 true).1.cursor.isSome = true ↔
      (iterate plainStore ((freshContext exampleStore).PrepareCursor plainStore (ascii "a")
        true).1 true).1.out
        = ((freshContext exampleStore).PrepareCursor plainStore (ascii "a") true).1.out
          ++ (pageReads plainStore 10
                { handle := { all := exampleStore, rest := exampleStore },
                  Prefix := some (ascii "a"), IncludeValues := true } true).flatMap
              (fun r => [r.1, r.2.1])
          ++ [SCAN_MORE]) ∧
    (iterate plainStore ((freshContext exampleStore).PrepareCursor plainStore (ascii "a")
      true).1 true).1.cursor.isSome = false ∧
    (iterate plainStore ((freshContext exampleStore).PrepareCursor plainStore (ascii "a")
      true).1 true).1.out = [ascii "a1", ascii "x", ascii "a2", ascii "y"] :=
  ⟨rfl,
   (iterate_cursor_marker plainStore
      ((freshContext exampleStore).PrepareCursor plainStore (ascii "a") true).1
      { handle := { all := exampleStore, rest := exampleStore },
        Prefix := some (ascii "a"), IncludeValues := true } true rfl).1,
   by decide, by decide⟩

/-! ## Shell loop: return and error output -/

theorem report_flag (d : Deps σ κ) (r : (Context σ κ × Option Error) × Bool) :
    (report d r).2 = r.2 := by
  unfold report
  split
  · rename_i h
    simp [h]
  · rename_i h
    split <;> simp [h]

/-- The chain of handlers ends in `return` exactly for a resolved `quit` or `exit`. -/
theorem dispatch_flag (d : Deps σ κ) (c : Context σ κ) (err : Option Error) (cmd : Command)
    (cerr : Option Error) :
    (dispatch d c err cmd cerr).2 = true ↔
      cerr = none ∧ (cmd.fn = ascii "quit" ∨ cmd.fn = ascii "exit") := by
  unfold dispatch
  cases cerr with
  | some e => simp
  | none =>
    simp only [true_and]
    by_cases h1 : cmd.fn = ascii "get"
    · rw [if_pos h1, h1]
      exact ⟨fun h => absurd h (by simp), fun h => absurd h (by decide)⟩
    · rw [if_neg h1]
      by_cases h2 : cmd.fn = ascii "exists"
      · rw [if_pos h2, h2]
        exact ⟨fun h => absurd h (by simp), fun h => absurd h (by decide)⟩
      · rw [if_neg h2]
        by_cases h3 : cmd.fn = ascii "del"
        · rw [if_pos h3, h3]
          exact ⟨fun h => absurd h (by simp), fun h => absurd h (by decide)⟩
        · rw [if_neg h3]
          by_cases h4 : cmd.fn = ascii "put"
          · rw [if_pos h4, h4]
            exact ⟨fun h => absurd h (by simp), fun h => absurd h (by decide)⟩
          · rw [if_neg h4]
            by_cases h5 : cmd.fn = ascii "scan"
            · rw [if_pos h5, h5]
              exact ⟨fun h => absurd h (by simp), fun h => absurd h (by decide)⟩
            · rw [if_neg h5]
              by_cases h6 : cmd.fn = ascii "it"
              · rw [if_pos h6, h6]
                exact ⟨fun h => absurd h (by simp), fun h => absurd h (by decide)⟩
              · rw [if_neg h6]
                by_cases h7 : cmd.fn = ascii "quit" ∨ cmd.fn = ascii "exit"
                · rw [if_pos h7]
                  simp [h7]
                · rw [if_neg h7]
                  simp [h7]

/-- A turn of the shell loop returns exactly when its line resolves to `quit` or
`exit`. -/
theorem loopBody_flag (d : Deps σ κ) (s : Shell σ κ) (input : Bytes) :
    (loopBody d s input).2 = true ↔
      ((getCommand (parseInput input)).1.fn = ascii "quit" ∨
        (getCommand (parseInput input)).1.fn = ascii "exit") := by
  unfold loopBody
  simp only
  rw [report_flag, dispatch_flag]
  constructor
  · exact fun h => h.2
  · intro h
    refine ⟨?_, h⟩
    by_contra hne
    rw [getCommand_error_zero _ hne] at h
    revert h
    decide

theorem readSlice_nil : ReadSlice [] = ([], []) := by decide

/-- A turn of the shell loop on a read that returned no bytes, when no earlier error is
pending: one output, `empty command`, and the loop goes on. -/
theorem loopBody_no_bytes (d : Deps σ κ) (c : Context σ κ) :
    loopBody d { context := c, err := none } []
      = ({ context := c.Prompt.CloseCursor.Output (ascii "empty command"), err := none },
          false) := by
  have hstart := loopBody_start c (getCommand (parseInput [])).1.fn (by decide)
  unfold loopBody
  simp only [hstart]
  have hg : getCommand (parseInput []) = (Command.zero, some errEmptyCommand) := by decide
  rw [hg]
  simp [dispatch, report, Error.Error, errEmptyCommand]

/-- At end of input the loop of `runShell` does not return: each turn emits
`empty command` and the next turn follows. -/
theorem runShellLoop_no_bytes (d : Deps σ κ) (fuel : Nat) (c : Context σ κ) :
    (runShellLoop d fuel { context := c, err := none } []).2 = false ∧
    (runShellLoop d fuel { context := c, err := none } []).1.1.context.out
      = c.out ++ List.replicate fuel (ascii "empty command") := by
  induction fuel generalizing c with
  | zero => simp [runShellLoop]
  | succ n ih =>
    unfold runShellLoop
    simp only [readSlice_nil, loopBody_no_bytes, Bool.false_eq_true, if_false]
    obtain ⟨h1, h2⟩ := ih (c.Prompt.CloseCursor.Output (ascii "empty command"))
    refine ⟨h1, ?_⟩
    rw [h2]
    simp [Context.Output, Context.CloseCursor, Context.Prompt, List.replicate_succ]

/-- The outputs of a turn whose line fails resolution: the resolver's message, and
after it the text of the error an earlier turn left in `err`, if any. -/
theorem loopBody_resolution_error (d : Deps σ κ) (s : Shell σ κ) (input : Bytes) (e : Error)
    (he : (getCommand (parseInput input)).2 = some e) :
    (loopBody d s input).1.context.out
      = s.context.out ++ [e.Error d] ++
          (match s.err with
           | some e₂ => [e₂.Error d]
           | none => []) := by
  have hz := getCommand_error_zero (parseInput input) (by rw [he]; simp)
  have hit : (getCommand (parseInput input)).1.fn ≠ ascii "it" := by
    rw [hz]
    decide
  have hstart := loopBody_start s.context _ hit
  unfold loopBody
  simp only [hstart, he, dispatch, report]
  cases hs : s.err with
  | none => simp [Context.Output, Context.CloseCursor, Context.Prompt]
  | some e₂ => simp [Context.Output, Context.CloseCursor, Context.Prompt]

/-! ## Shell loop: end of input and error texts -/

/-- C11 at the failing input: a turn of `runShell` returns exactly when its line
resolves to `quit` or `exit`, so no resolution error and no handler error stops the
loop; but neither does the end of the input.  There `ReadSlice` returns no bytes, the
turn emits `empty command`, and the next turn follows: after any number of turns on the
ended input the loop has not returned. -/
theorem runShell_end_of_input (d : Deps σ κ) :
    (∀ (s : Shell σ κ) (input : Bytes), (loopBody d s input).2 = true ↔
      ((getCommand (parseInput input)).1.fn = ascii "quit" ∨
        (getCommand (parseInput input)).1.fn = ascii "exit")) ∧
    ReadSlice [] = ([], []) ∧
    (∀ (fuel : Nat) (context : Context σ κ),
      (runShell d fuel context []).2 = false ∧
      (runShell d fuel context []).1.1.context.out
        = context.out ++ List.replicate fuel (ascii "empty command")) ∧
    (runShell plainStore 3 (freshContext []) (ascii "exists k\n")).2 = false ∧
    (runShell plainStore 3 (freshContext []) (ascii "exists k\n")).1.1.context.out
      = [ascii "false", ascii "empty command", ascii "empty command"] ∧
    (runShell plainStore 3 (freshContext []) (ascii "quit\nexists k\n")).2 = true := by
  refine ⟨fun s input => loopBody_flag d s input, readSlice_nil,
    fun fuel context => runShellLoop_no_bytes d fuel context, by decide, by decide, by decide⟩

/-- C18 at the failing input: over the empty store the line `get missing` fails with
`NotFound`, whose text is emitted once.  The blank line after it fails resolution and
causes two outputs, the resolver's message and the text of the earlier error again;
the line `stat`, which has no handler, causes that error output too; only a handler
that runs replaces the pending error. -/
theorem runShell_stale_error :
    (loopBody textStore { context := freshContext [], err := none }
        (ascii "get missing\n")).1.context.out = [ascii "MDB_NOTFOUND"] ∧
    (loopBody textStore
        (loopBody textStore { context := freshContext [], err := none }
          (ascii "get missing\n")).1 (ascii "\n")).1.context.out
      = [ascii "MDB_NOTFOUND", ascii "empty command", ascii "MDB_NOTFOUND"] ∧
    (loopBody textStore
        (loopBody textStore { context := freshContext [], err := none }
          (ascii "get missing\n")).1 (ascii "stat\n")).1.context.out
      = [ascii "MDB_NOTFOUND", ascii "MDB_NOTFOUND"] ∧
    (loopBody textStore
        (loopBody textStore { context := freshContext [], err := none }
          (ascii "get missing\n")).1 (ascii "exists missing\n")).1.context.out
      = [ascii "MDB_NOTFOUND", ascii "false"] ∧
    (runShell textStore 3 (freshContext []) (ascii "get missing\n\nquit\n")).1.1.context.out
      = [ascii "MDB_NOTFOUND", ascii "empty command", ascii "MDB_NOTFOUND"] := by
  decide

/-! ## Tokenizer: a last word without whitespace after it -/

/-- Inside a word, bytes that are not whitespace are appended to `arg` and nothing is
emitted. -/
theorem foldl_word_plain (w : Bytes) (rs : List Bytes) (a : Bytes)
    (hw : ∀ b ∈ w, isWhiteSpace b = false) :
    w.foldl parseStep ⟨rs, a, State.STATE_WORD⟩ = ⟨rs, a ++ w, State.STATE_WORD⟩ := by
  induction w generalizing a with
  | nil => simp
  | cons x xs ih =>
    have hx := hw x (List.mem_cons_self _ _)
    rw [List.foldl_cons]
    have hstep : parseStep ⟨rs, a, State.STATE_WORD⟩ x = ⟨rs, a ++ [x], State.STATE_WORD⟩ := by
      simp [parseStep, hx]
    rw [hstep, ih (a ++ [x]) (fun b hb => hw b (List.mem_cons_of_mem _ hb))]
    simp

/-- A word that is the last bytes of the input, with no whitespace byte after it, adds
no token. -/
theorem parseInput_last_word (s w : Bytes) (hs : (parseRun s).state = State.STATE_NONE)
    (hw : ∀ b ∈ w, isWhiteSpace b = false ∧ isQuote b = false) :
    parseInput (s ++ w) = parseInput s := by
  rcases hrun : parseRun s with ⟨rs, a, st⟩
  simp only [hrun] at hs
  subst hs
  cases w with
  | nil => simp
  | cons x xs =>
    have hx := hw x (List.mem_cons_self _ _)
    simp only [parseInput, parseRun_append, hrun, List.foldl_cons]
    have hstep : parseStep ⟨rs, a, State.STATE_NONE⟩ x = ⟨rs, a ++ [x], State.STATE_WORD⟩ := by
      simp [parseStep, hx.1, hx.2]
    rw [hstep, foldl_word_plain xs rs (a ++ [x])
      (fun b hb => (hw b (List.mem_cons_of_mem _ hb)).1)]

/-! ## Shell loop: the cursor after a line -/

/-- A line `it` runs `iterate` on the context as the prompt left it. -/
theorem loopBody_it (d : Deps σ κ) (s : Shell σ κ) (input : Bytes)
    (hit : (getCommand (parseInput input)).1.fn = ascii "it") :
    loopBody d s input = report d (iterate d s.context.Prompt false, false) := by
  have hok := getCommand_ok_of_it _ hit
  unfold loopBody dispatch
  simp only [hok, hit, ne_eq, not_true_eq_false, false_and, if_false,
    show ¬ (ascii "it" = ascii "get") by decide,
    show ¬ (ascii "it" = ascii "exists") by decide,
    show ¬ (ascii "it" = ascii "del") by decide,
    show ¬ (ascii "it" = ascii "put") by decide,
    show ¬ (ascii "it" = ascii "scan") by decide, if_true]

theorem scan_cursor_error (d : Deps σ κ) (c : Context σ κ) (val : Bytes) (e : Error)
    (h : d.cursorOpen c.store = Except.error e) : (scan d c val).1.cursor = none := by
  have h₂ : d.cursorOpen c.CloseCursor.store = Except.error e := h
  unfold scan Context.PrepareCursor
  simp only [h₂]
  rfl

/-- After `scan` the cursor it opened is open exactly when its first page is full. -/
theorem scan_cursor_ok (d : Deps σ κ) (c : Context σ κ) (val : Bytes) (h : κ)
    (hok : d.cursorOpen c.store = Except.ok h) :
    (scan d c val).1.cursor.isSome
      = decide ((pageReads d 10
          { handle := h, Prefix := if val = [] then none else some val,
            IncludeValues := true } true).length = 10) := by
  have h₂ : d.cursorOpen c.CloseCursor.store = Except.ok h := hok
  unfold scan Context.PrepareCursor
  simp only [h₂]
  rw [iterate_eq_pageCall]
  simp only [pageCall]
  exact (pageLoop_trace d emitPair 10 _ _ _ (by rfl)).2.1

/-- The cursor after a line `scan` is the one the handler `scan` leaves. -/
theorem loopBody_scan_cursor (d : Deps σ κ) (s : Shell σ κ) (input : Bytes)
    (hscan : (getCommand (parseInput input)).1.fn = ascii "scan") :
    (loopBody d s input).1.context.cursor
      = (scan d s.context.Prompt.CloseCursor (getCommand (parseInput input)).1.key).1.cursor := by
  have hit : (getCommand (parseInput input)).1.fn ≠ ascii "it" := by
    rw [hscan]
    decide
  have hok : (getCommand (parseInput input)).2 = none := by
    by_contra hne
    rw [getCommand_error_zero _ hne] at hscan
    revert hscan
    decide
  have hstart := loopBody_start s.context _ hit
  unfold loopBody
  simp only [hstart]
  rw [report_cursor]
  unfold dispatch
  simp only [hok, hscan,
    show ¬ (ascii "scan" = ascii "get") by decide,
    show ¬ (ascii "scan" = ascii "exists") by decide,
    show ¬ (ascii "scan" = ascii "del") by decide,
    show ¬ (ascii "scan" = ascii "put") by decide, if_false, if_true]

/-- C10 (as amended): a line whose verb is not `it` (a blank line and a line that fails
resolution included) is processed as if the cursor had been closed beforehand.  When no
cursor is open after the line, a line `it` right after it emits nothing, reports no
error and leaves the store and the closed cursor as they are.  No cursor is open after
the line when its verb is not `scan`, nor after a line `scan` whose cursor cannot be
opened or whose first page is not full; a line `scan` whose first page is full (its ten
reads all give an entry within the bound) leaves the cursor it opened open.  In every
case the line `it` runs `iterate` on the context as the line before left it. -/
theorem loopBody_closes_cursor (d : Deps σ κ) (s : Shell σ κ) (input : Bytes)
    (hit : (getCommand (parseInput input)).1.fn ≠ ascii "it") :
    loopBody d s input = loopBody d { s with context := s.context.CloseCursor } input ∧
    ((getCommand (parseInput input)).1.fn ≠ ascii "scan" →
      (loopBody d s input).1.context.cursor.isSome = false) ∧
    ((getCommand (parseInput input)).1.fn = ascii "scan" →
      (∀ e, d.cursorOpen s.context.store = Except.error e →
        (loopBody d s input).1.context.cursor.isSome = false) ∧
      (∀ h, d.cursorOpen s.context.store = Except.ok h →
        ((loopBody d s input).1.context.cursor.isSome = true ↔
          (pageReads d 10
            { handle := h,
              Prefix := if (getCommand (parseInput input)).1.key = [] then none
                else some (getCommand (parseInput input)).1.key,
              IncludeValues := true } true).length = 10))) ∧
    ((loopBody d s input).1.context.cursor.isSome = false →
      ∀ input₂ : Bytes, (getCommand (parseInput input₂)).1.fn = ascii "it" →
        (loopBody d (loopBody d s input).1 input₂).1.context.out
          = (loopBody d s input).1.context.out ∧
        (loopBody d (loopBody d s input).1 input₂).1.err = none ∧
        (loopBody d (loopBody d s input).1 input₂).2 = false ∧
        (loopBody d (loopBody d s input).1 input₂).1.context.cursor.isSome = false ∧
        (loopBody d (loopBody d s input).1 input₂).1.context.store
          = (loopBody d s input).1.context.store) ∧
    (∀ input₂ : Bytes, (getCommand (parseInput input₂)).1.fn = ascii "it" →
      loopBody d (loopBody d s input).1 input₂
        = report d (iterate d (loopBody d s input).1.context.Prompt false, false)) := by
  have hstart := loopBody_start s.context _ hit
  have hstart₂ := loopBody_start s.context.CloseCursor _ hit
  refine ⟨?_, ?_, ?_, ?_, fun input₂ hit₂ => loopBody_it d _ input₂ hit₂⟩
  · unfold loopBody
    simp only [hstart]
    simp only [hstart₂]
    rfl
  · intro hscan
    have hclosed : (loopBody d s input).1.context.cursor = none := by
      unfold loopBody
      simp only [hstart]
      rw [report_cursor, dispatch_cursor d _ _ _ _ hscan hit]
      rfl
    rw [hclosed]
    rfl
  · intro hscan
    rw [loopBody_scan_cursor d s input hscan]
    refine ⟨fun e he => ?_, fun h hok => ?_⟩
    · rw [scan_cursor_error d s.context.Prompt.CloseCursor _ e he]
      rfl
    · rw [scan_cursor_ok d s.context.Prompt.CloseCursor _ h hok]
      simp
  · intro hnone input₂ hit₂
    have hclosed : (loopBody d s input).1.context.cursor = none := by
      cases hc : (loopBody d s input).1.context.cursor with
      | none => rfl
      | some x => simp [hc] at hnone
    rw [loopBody_it_closed d _ input₂ hit₂ hclosed]
    refine ⟨rfl, rfl, rfl, ?_, rfl⟩
    show (loopBody d s input).1.context.cursor.isSome = false
    exact hnone

/-- C10 at two lines typed while a cursor is open over the store of eleven keys:
`get a1`, and `scan a5`, whose first page, the one entry `a5`, is not full.  After
either the cursor is closed and the line `it` emits nothing. -/
theorem loopBody_closes_cursor_witness :
    openShell.context.cursor.isSome = true ∧
    (getCommand (parseInput (ascii "get a1\n"))).1.fn ≠ ascii "it" ∧
    (loopBody plainStore openShell (ascii "get a1\n")).1.context.cursor.isSome = false ∧
    (loopBody plainStore (loopBody plainStore openShell (ascii "get a1\n")).1
        (ascii "it\n")).1.context.out
      = (loopBody plainStore openShell (ascii "get a1\n")).1.context.out ∧
    (getCommand (parseInput (ascii "scan a5\n"))).1.fn = ascii "scan" ∧
    (loopBody plainStore openShell (ascii "scan a5\n")).1.context.cursor.isSome = false ∧
    (loopBody plainStore (loopBody plainStore openShell (ascii "scan a5\n")).1
        (ascii "it\n")).1.context.out
      = (loopBody plainStore openShell (ascii "scan a5\n")).1.context.out ∧
    (loopBody plainStore (loopBody plainStore openShell (ascii "scan a5\n")).1
        (ascii "it\n")).1.err = none :=
  ⟨by decide, by decide,
   (loopBody_closes_cursor plainStore openShell (ascii "get a1\n") (by decide)).2.1
      (by decide),
   ((loopBody_closes_cursor plainStore openShell (ascii "get a1\n") (by decide)).2.2.2.1
      (by decide) (ascii "it\n") (by decide)).1,
   by decide, by decide,
   ((loopBody_closes_cursor plainStore openShell (ascii "scan a5\n") (by decide)).2.2.2.1
      (by decide) (ascii "it\n") (by decide)).1,
   ((loopBody_closes_cursor plainStore openShell (ascii "scan a5\n") (by decide)).2.2.2.1
      (by decide) (ascii "it\n") (by decide)).2.1⟩

end LmdbCli
